import Mathlib

/-!
# Alert judge: event state machine and windowed functions

A shallow embedding of `store/judge.go` and `store/func.go`.

* Go `int` and `int64` values are integers; arithmetic that can leave the 64-bit range
  (`now - lastEvent.EventTime`, `lastEvent.CurrentStep + 1`, `this.Limit + 1`) is wrapped
  with `wrap64`.
* `float64` arithmetic is a parameter (`Float64Ops`): every definition takes the
  operations it uses, so a theorem proved for all `ops` holds for the IEEE operations.
* A run-time panic (index or slice bound out of range) is the result `none`.
* A Go string that is indexed or sliced is the list of its bytes (`goBytes`); a Go
  `map[string]string` is the list of its entries in the order in which `range` visits them.
* Calls into code that is not part of the sources (`g.LastEvents`, `L.HistoryData`,
  `firstItem.PrimaryKey`, the rule indexes) are parameters of the definitions.
-/

namespace Judge

/-! ## Machine integers -/

/-- Two's complement wrap-around of an integer to the signed 64-bit range. -/
def wrap64 (x : Int) : Int :=
  (x + 9223372036854775808) % 18446744073709551616 - 9223372036854775808

/-- The integer is a value of the Go type `int64` (and of `int` on a 64-bit platform). -/
def isInt64 (x : Int) : Prop :=
  -9223372036854775808 ≤ x ∧ x < 9223372036854775808

instance (x : Int) : Decidable (isInt64 x) := by
  unfold isInt64; exact inferInstance

/-! ## Floating point values -/

/-- The `float64` operations used by the judge: the literals `0`, `100.0` and `0.0001`,
arithmetic, `math.Abs`, the conversion `float64(int)` and the comparisons `<`, `<=`, `==`.
`a > b` is read as `b < a` and `a >= b` as `b <= a`. -/
structure Float64Ops (F : Type) where
  zero : F
  hundred : F
  epsilon : F
  add : F → F → F
  sub : F → F → F
  mul : F → F → F
  div : F → F → F
  abs : F → F
  ofInt : Int → F
  lt : F → F → Bool
  le : F → F → Bool
  eq : F → F → Bool

/-! ## Data model (`model.HistoryData`, `model.Event`) -/

/-- One point of a series window: `model.HistoryData`. -/
structure HistoryData (F : Type) where
  Timestamp : Int
  Value : F
deriving DecidableEq, Repr

/-- The fields of `model.Strategy` that the judge reads. A Go `map[string]string` is the list
of its entries, in the order in which `range` visits them. -/
structure Strategy (F : Type) where
  Id : Int
  Metric : String
  Tags : List (String × String)
  Func : String
  Operator : String
  RightValue : F
  MaxStep : Int
deriving DecidableEq, Repr

/-- The fields of `model.Expression` that the judge reads. -/
structure Expression (F : Type) where
  Id : Int
  Metric : String
  Tags : List (String × String)
  Func : String
  Operator : String
  RightValue : F
  MaxStep : Int
deriving DecidableEq, Repr

/-- The fields of `model.Event` that the judge reads or writes. -/
structure Event (F : Type) where
  Id : String
  Status : String
  Endpoint : String
  LeftValue : F
  CurrentStep : Int
  EventTime : Int
  PushedTags : List (String × String)
  Strategy : Option (Judge.Strategy F) := none
  Expression : Option (Judge.Expression F) := none
deriving DecidableEq, Repr

/-- Modelled from the spec: the `g.LastEvents` map (package `g` is not part of the sources),
a mapping from event id to the most recently emitted event. -/
def LastEvents (F : Type) : Type := String → Option (Event F)

/-- The index with no entry. -/
def LastEvents.empty {F : Type} : LastEvents F := fun _ => none

/-- Modelled from the spec: `g.LastEvents.Get(id)`, the lookup of the last event of an id. -/
def LastEvents.Get {F : Type} (m : LastEvents F) (id : String) : Option (Event F) := m id

/-- Modelled from the spec: `g.LastEvents.Set(id, event)`, which overwrites the entry of `id`. -/
def LastEvents.Set {F : Type} (m : LastEvents F) (id : String) (e : Event F) : LastEvents F :=
  fun k => if k = id then some e else m k

/-! ## Event state machine (`store/judge.go`) -/

/-- The function `sendEvent`: the last event of the id is updated, then the event is handed
to the sink. The result is the new index and the list of events handed to the sink. -/
def sendEvent {F : Type} (st : LastEvents F) (event : Event F) : LastEvents F × List (Event F) :=
  (st.Set event.Id event, [event])

/-- The function `sendEventIfNeed`. `MinInterval` is `g.Config().Alarm.MinInterval`.
The result `none` is a run-time panic (`lastEvent.Status[0]` on an empty status, or
`historyData[len(historyData)-1]` on an empty history); otherwise the result is the index
after the call and the events sent by the call. -/
def sendEventIfNeed {F : Type} (MinInterval : Int) (st : LastEvents F)
    (historyData : List (HistoryData F)) (isTriggered : Bool) (now : Int)
    (event : Event F) (maxStep : Int) : Option (LastEvents F × List (Event F)) :=
  let lastEvent := st.Get event.Id
  if isTriggered then
    let event := { event with Status := "PROBLEM" }
    let fresh : Option (LastEvents F × List (Event F)) :=
      let event := { event with CurrentStep := 1 }
      if maxStep = 0 then some (st, []) else some (sendEvent st event)
    match lastEvent with
    | none => fresh
    | some lastEvent =>
      match lastEvent.Status.data with
      | [] => none
      | c :: _ =>
        if c = 'O' then fresh
        else if lastEvent.CurrentStep ≥ maxStep then some (st, [])
        else
          match historyData.getLast? with
          | none => none
          | some oldest =>
            if oldest.Timestamp ≤ lastEvent.EventTime then some (st, [])
            else if wrap64 (now - lastEvent.EventTime) < MinInterval then some (st, [])
            else some (sendEvent st { event with CurrentStep := wrap64 (lastEvent.CurrentStep + 1) })
  else
    match lastEvent with
    | none => some (st, [])
    | some lastEvent =>
      match lastEvent.Status.data with
      | [] => none
      | c :: _ =>
        if c = 'P' then some (sendEvent st { event with Status := "OK", CurrentStep := 1 })
        else some (st, [])

/-- One call of `sendEventIfNeed`: its arguments. -/
structure Call (F : Type) where
  historyData : List (HistoryData F)
  isTriggered : Bool
  now : Int
  event : Event F
  maxStep : Int

/-- A sequence of `sendEventIfNeed` calls executed one after the other from the index `st`.
The result is the final index and the events sent, each paired with the `now` of the call that
sent it. A panic ends the run. -/
def runCalls {F : Type} (MinInterval : Int) :
    LastEvents F → List (Call F) → LastEvents F × List (Int × Event F)
  | st, [] => (st, [])
  | st, c :: cs =>
    match sendEventIfNeed MinInterval st c.historyData c.isTriggered c.now c.event c.maxStep with
    | none => (st, [])
    | some (st1, sent) =>
      let r := runCalls MinInterval st1 cs
      (r.1, sent.map (fun e => (c.now, e)) ++ r.2)

/-! ## Windowed functions (`store/func.go`) -/

/-- Modelled from the spec: the window handle `*SafeLinkedList` (its source file is not part of
the sources). The evaluators use only its method `HistoryData(limit)`, the snapshot of the
newest `limit` entries (newest first) together with the flag `isEnough`. -/
structure SafeLinkedList (F : Type) where
  HistoryData : Int → List (Judge.HistoryData F) × Bool

/-- The four named results of `Compute`. -/
structure ComputeResult (F : Type) where
  vs : List (HistoryData F)
  leftValue : F
  isTriggered : Bool
  isEnough : Bool
deriving DecidableEq, Repr

/-- The function `checkIsTriggered`: a `switch` on the operator; an operator that matches no
case leaves the result at its zero value `false`. -/
def checkIsTriggered {F : Type} (ops : Float64Ops F) (leftValue : F) (operator : String)
    (rightValue : F) : Bool :=
  if operator = "=" ∨ operator = "==" then
    ops.lt (ops.abs (ops.sub leftValue rightValue)) ops.epsilon
  else if operator = "!=" then
    ops.lt ops.epsilon (ops.abs (ops.sub leftValue rightValue))
  else if operator = "<" then ops.lt leftValue rightValue
  else if operator = "<=" then ops.le leftValue rightValue
  else if operator = ">" then ops.lt rightValue leftValue
  else if operator = ">=" then ops.le rightValue leftValue
  else false

/-- The struct `MaxFunction`. -/
structure MaxFunction (F : Type) where
  Limit : Int
  Operator : String
  RightValue : F

/-- The struct `MinFunction`. -/
structure MinFunction (F : Type) where
  Limit : Int
  Operator : String
  RightValue : F

/-- The struct `AllFunction`. -/
structure AllFunction (F : Type) where
  Limit : Int
  Operator : String
  RightValue : F

/-- The struct `DiffFunction`. -/
structure DiffFunction (F : Type) where
  Limit : Int
  Operator : String
  RightValue : F

/-- The struct `PDiffFunction`. -/
structure PDiffFunction (F : Type) where
  Limit : Int
  Operator : String
  RightValue : F

/-- The loop of `MaxFunction.Compute`: `n` iterations remain, `i` is the loop index and `max`
the running maximum. -/
def MaxFunction.loop {F : Type} (ops : Float64Ops F) (vs : List (HistoryData F)) :
    Nat → Nat → F → Option F
  | 0, _, max => some max
  | n + 1, i, max =>
    match vs[i]? with
    | none => none
    | some v => MaxFunction.loop ops vs n (i + 1) (if ops.lt max v.Value then v.Value else max)

/-- The method `MaxFunction.Compute`. The loop `for i := 1; i < this.Limit; i++` runs
`this.Limit - 1` times (not at all when that is negative). -/
def MaxFunction.Compute {F : Type} (ops : Float64Ops F) (this : MaxFunction F)
    (L : SafeLinkedList F) : Option (ComputeResult F) :=
  match L.HistoryData this.Limit with
  | (vs, false) => some ⟨vs, ops.zero, false, false⟩
  | (vs, true) =>
    match vs[0]? with
    | none => none
    | some v0 =>
      match MaxFunction.loop ops vs (this.Limit - 1).toNat 1 v0.Value with
      | none => none
      | some max =>
        some ⟨vs, max, checkIsTriggered ops max this.Operator this.RightValue, true⟩

/-- The loop of `MinFunction.Compute`. -/
def MinFunction.loop {F : Type} (ops : Float64Ops F) (vs : List (HistoryData F)) :
    Nat → Nat → F → Option F
  | 0, _, min => some min
  | n + 1, i, min =>
    match vs[i]? with
    | none => none
    | some v => MinFunction.loop ops vs n (i + 1) (if ops.lt v.Value min then v.Value else min)

/-- The method `MinFunction.Compute`; `min > vs[i].Value` is `vs[i].Value < min`. -/
def MinFunction.Compute {F : Type} (ops : Float64Ops F) (this : MinFunction F)
    (L : SafeLinkedList F) : Option (ComputeResult F) :=
  match L.HistoryData this.Limit with
  | (vs, false) => some ⟨vs, ops.zero, false, false⟩
  | (vs, true) =>
    match vs[0]? with
    | none => none
    | some v0 =>
      match MinFunction.loop ops vs (this.Limit - 1).toNat 1 v0.Value with
      | none => none
      | some min =>
        some ⟨vs, min, checkIsTriggered ops min this.Operator this.RightValue, true⟩

/-- The loop of `AllFunction.Compute`: every iteration overwrites `isTriggered` and a `false`
leaves the loop. -/
def AllFunction.loop {F : Type} (ops : Float64Ops F) (this : AllFunction F)
    (vs : List (HistoryData F)) : Nat → Nat → Bool → Option Bool
  | 0, _, isTriggered => some isTriggered
  | n + 1, i, _ =>
    match vs[i]? with
    | none => none
    | some v =>
      if checkIsTriggered ops v.Value this.Operator this.RightValue then
        AllFunction.loop ops this vs n (i + 1) true
      else some false

/-- The method `AllFunction.Compute`. The loop `for i := 0; i < this.Limit; i++` runs before
`leftValue = vs[0].Value` is read. -/
def AllFunction.Compute {F : Type} (ops : Float64Ops F) (this : AllFunction F)
    (L : SafeLinkedList F) : Option (ComputeResult F) :=
  match L.HistoryData this.Limit with
  | (vs, false) => some ⟨vs, ops.zero, false, false⟩
  | (vs, true) =>
    match AllFunction.loop ops this vs this.Limit.toNat 0 true with
    | none => none
    | some isTriggered =>
      match vs[0]? with
      | none => none
      | some v0 => some ⟨vs, v0.Value, isTriggered, true⟩

/-- The loop of `DiffFunction.Compute`: every iteration overwrites `leftValue` and
`isTriggered`, and a `true` leaves the loop. -/
def DiffFunction.loop {F : Type} (ops : Float64Ops F) (this : DiffFunction F)
    (vs : List (HistoryData F)) (first : F) : Nat → Nat → F → Bool → Option (F × Bool)
  | 0, _, leftValue, isTriggered => some (leftValue, isTriggered)
  | n + 1, i, _, _ =>
    match vs[i]? with
    | none => none
    | some v =>
      let leftValue := ops.sub first v.Value
      if checkIsTriggered ops leftValue this.Operator this.RightValue then some (leftValue, true)
      else DiffFunction.loop ops this vs first n (i + 1) leftValue false

/-- The method `DiffFunction.Compute`. The window asked for is `this.Limit + 1` and the loop
`for i := 1; i < this.Limit+1; i++` runs `this.Limit` times. -/
def DiffFunction.Compute {F : Type} (ops : Float64Ops F) (this : DiffFunction F)
    (L : SafeLinkedList F) : Option (ComputeResult F) :=
  match L.HistoryData (wrap64 (this.Limit + 1)) with
  | (vs, false) => some ⟨vs, ops.zero, false, false⟩
  | (vs, true) =>
    match vs[0]? with
    | none => some ⟨vs, ops.zero, false, false⟩
    | some v0 =>
      match DiffFunction.loop ops this vs v0.Value (wrap64 (this.Limit + 1) - 1).toNat 1
          ops.zero false with
      | none => none
      | some (leftValue, isTriggered) => some ⟨vs, leftValue, isTriggered, true⟩

/-- The expression `(first - vs[i].Value) / vs[i].Value * 100.0` of `PDiffFunction.Compute`. -/
def PDiffFunction.percent {F : Type} (ops : Float64Ops F) (first v : F) : F :=
  ops.mul (ops.div (ops.sub first v) v) ops.hundred

/-- The loop of `PDiffFunction.Compute`: an entry whose value `== 0` is skipped by `continue`
before anything is computed. -/
def PDiffFunction.loop {F : Type} (ops : Float64Ops F) (this : PDiffFunction F)
    (vs : List (HistoryData F)) (first : F) : Nat → Nat → F → Bool → Option (F × Bool)
  | 0, _, leftValue, isTriggered => some (leftValue, isTriggered)
  | n + 1, i, leftValue, isTriggered =>
    match vs[i]? with
    | none => none
    | some v =>
      if ops.eq v.Value ops.zero then
        PDiffFunction.loop ops this vs first n (i + 1) leftValue isTriggered
      else
        let leftValue := PDiffFunction.percent ops first v.Value
        if checkIsTriggered ops leftValue this.Operator this.RightValue then
          some (leftValue, true)
        else PDiffFunction.loop ops this vs first n (i + 1) leftValue false

/-- The method `PDiffFunction.Compute`. -/
def PDiffFunction.Compute {F : Type} (ops : Float64Ops F) (this : PDiffFunction F)
    (L : SafeLinkedList F) : Option (ComputeResult F) :=
  match L.HistoryData (wrap64 (this.Limit + 1)) with
  | (vs, false) => some ⟨vs, ops.zero, false, false⟩
  | (vs, true) =>
    match vs[0]? with
    | none => some ⟨vs, ops.zero, false, false⟩
    | some v0 =>
      match PDiffFunction.loop ops this vs v0.Value (wrap64 (this.Limit + 1) - 1).toNat 1
          ops.zero false with
      | none => none
      | some (leftValue, isTriggered) => some ⟨vs, leftValue, isTriggered, true⟩

/-! ## A concrete value domain for examples -/

/-- Values for evaluating the model on examples: a NaN, the two infinities and the rationals.
The operations below follow IEEE 754 without rounding and without a negative zero, so they
agree with `float64` wherever the `float64` result is exact. -/
inductive ExactFloat where
  | nan : ExactFloat
  | inf (negative : Bool) : ExactFloat
  | fin (q : ℚ) : ExactFloat
deriving DecidableEq, Repr

/-- Negation. -/
def ExactFloat.neg : ExactFloat → ExactFloat
  | .nan => .nan
  | .inf s => .inf (!s)
  | .fin q => .fin (-q)

/-- Addition: opposite infinities add to NaN. -/
def ExactFloat.add : ExactFloat → ExactFloat → ExactFloat
  | .nan, _ => .nan
  | _, .nan => .nan
  | .inf s, .inf t => if s = t then .inf s else .nan
  | .inf s, .fin _ => .inf s
  | .fin _, .inf t => .inf t
  | .fin p, .fin q => .fin (p + q)

/-- Multiplication: an infinity times zero is NaN. -/
def ExactFloat.mul : ExactFloat → ExactFloat → ExactFloat
  | .nan, _ => .nan
  | _, .nan => .nan
  | .inf s, .inf t => .inf (xor s t)
  | .inf s, .fin q => if q = 0 then .nan else .inf (xor s (decide (q < 0)))
  | .fin p, .inf t => if p = 0 then .nan else .inf (xor (decide (p < 0)) t)
  | .fin p, .fin q => .fin (p * q)

/-- Division: a non-zero value over zero is an infinity, zero over zero is NaN. -/
def ExactFloat.div : ExactFloat → ExactFloat → ExactFloat
  | .nan, _ => .nan
  | _, .nan => .nan
  | .inf _, .inf _ => .nan
  | .inf s, .fin q => .inf (xor s (decide (q < 0)))
  | .fin _, .inf _ => .fin 0
  | .fin p, .fin q =>
    if q = 0 then (if p = 0 then .nan else .inf (decide (p < 0))) else .fin (p / q)

/-- Absolute value. -/
def ExactFloat.abs : ExactFloat → ExactFloat
  | .nan => .nan
  | .inf _ => .inf false
  | .fin q => .fin |q|

/-- Strict order; every comparison with NaN is false. -/
def ExactFloat.lt : ExactFloat → ExactFloat → Bool
  | .nan, _ => false
  | _, .nan => false
  | .inf s, .inf t => s && !t
  | .inf s, .fin _ => s
  | .fin _, .inf t => !t
  | .fin p, .fin q => decide (p < q)

/-- Equality `==`; NaN is not equal to itself. -/
def ExactFloat.eq : ExactFloat → ExactFloat → Bool
  | .nan, _ => false
  | _, .nan => false
  | .inf s, .inf t => s == t
  | .inf _, .fin _ => false
  | .fin _, .inf _ => false
  | .fin p, .fin q => decide (p = q)

/-- The operations of `ExactFloat`. -/
def exactOps : Float64Ops ExactFloat where
  zero := .fin 0
  hundred := .fin 100
  epsilon := .fin (1 / 10000)
  add := ExactFloat.add
  sub := fun a b => ExactFloat.add a b.neg
  mul := ExactFloat.mul
  div := ExactFloat.div
  abs := ExactFloat.abs
  ofInt := fun n => .fin n
  lt := ExactFloat.lt
  le := fun a b => ExactFloat.lt a b || ExactFloat.eq a b
  eq := ExactFloat.eq

/-- Modelled from the spec: `Snapshot(window, n)` of a window that holds the given entries,
newest first. The newest `n` entries are copied, and `enough` is false if the window holds
fewer than `n` entries. -/
def windowOf {F : Type} (entries : List (HistoryData F)) : SafeLinkedList F where
  HistoryData := fun limit => (entries.take limit.toNat, decide (limit ≤ entries.length))

/-! ## Predicates on runs and on values -/

/-- How an emission `b` of a run for the event id `id` relates to the last event `prev` stored
for that id when the emitting call started: `b` is a recovery (`OK`, step 1, after an entry
whose status starts with `P`), a new incident (`PROBLEM`, step 1, after no entry or an entry
whose status starts with `O`), or an escalation of `prev` by one of the calls. -/
def StepRel {F : Type} (MinInterval : Int) (id : String) (calls : List (Call F))
    (prev : Option (Event F)) (b : Int × Event F) : Prop :=
  b.2.Id = id ∧
    ((b.2.Status = "OK" ∧ b.2.CurrentStep = 1 ∧
        ∃ last, prev = some last ∧ last.Status.data.head? = some 'P') ∨
      (b.2.Status = "PROBLEM" ∧ b.2.CurrentStep = 1 ∧ (∃ c ∈ calls, c.now = b.1 ∧ c.maxStep ≠ 0) ∧
        ∀ last, prev = some last → last.Status.data.head? = some 'O') ∨
      (b.2.Status = "PROBLEM" ∧
        ∃ last, prev = some last ∧ last.Status.data.head? ≠ some 'O' ∧
          ∃ c ∈ calls, c.now = b.1 ∧ last.CurrentStep < c.maxStep ∧
            MinInterval ≤ wrap64 (b.1 - last.EventTime) ∧
            b.2.CurrentStep = wrap64 (last.CurrentStep + 1)))

/-- A trace of emissions in which every emission is related by `R` to the event emitted just
before it, the first one to `prev`. -/
def TraceFrom {F : Type} (R : Option (Event F) → Int × Event F → Prop) :
    Option (Event F) → List (Int × Event F) → Prop
  | _, [] => True
  | prev, x :: xs => R prev x ∧ TraceFrom R (some x.2) xs

/-- The last event `prev` of an id is absent, an `OK`, or a `PROBLEM` whose step lies between
1 and `N`. -/
def StepBounded {F : Type} (N : Int) (prev : Option (Event F)) : Prop :=
  ∀ last, prev = some last →
    last.Status = "OK" ∨ (last.Status = "PROBLEM" ∧ 1 ≤ last.CurrentStep ∧ last.CurrentStep ≤ N)

/-- The number `s` of `PROBLEM` emissions of the incident that `prev` belongs to: the step of
`prev` when it is a `PROBLEM`, and 0 when there is no entry or the entry is an `OK`. -/
def ActiveStep {F : Type} (prev : Option (Event F)) (s : Int) : Prop :=
  (∃ last, prev = some last ∧ last.Status = "PROBLEM" ∧ last.CurrentStep = s) ∨
    ((∀ last, prev = some last → last.Status = "OK") ∧ s = 0)

/-- The comparisons of `ops` order the values `xs` totally: `<=` is reflexive and transitive
on them, `a < b` gives `a <= b`, and when `a < b` fails then `b <= a`. This is the case of
`float64` values none of which is NaN. -/
def Ordered {F : Type} (ops : Float64Ops F) (xs : List F) : Prop :=
  (∀ a ∈ xs, ops.le a a = true) ∧
    (∀ a ∈ xs, ∀ b ∈ xs, ops.lt a b = true → ops.le a b = true) ∧
    (∀ a ∈ xs, ∀ b ∈ xs, ops.lt a b = false → ops.le b a = true) ∧
    (∀ a ∈ xs, ∀ b ∈ xs, ∀ c ∈ xs, ops.le a b = true → ops.le b c = true → ops.le a c = true)

instance {F : Type} (ops : Float64Ops F) (xs : List F) : Decidable (Ordered ops xs) := by
  unfold Ordered; exact inferInstance

/-! ## Example inputs -/

/-- The event built for strategy 1 on the series `k` when the sample of time 3 and value 6
arrives (seed scenario 1 of the specification). -/
def sampleEvent : Event ExactFloat :=
  { Id := "s_1_k", Status := "", Endpoint := "host1", LeftValue := .fin 6, CurrentStep := 0,
    EventTime := 3, PushedTags := [] }

/-- The history used by `max(#3)` in seed scenario 1: values 6, 4, 1 at times 3, 2, 1. -/
def sampleHistory : List (HistoryData ExactFloat) :=
  [⟨3, .fin 6⟩, ⟨2, .fin 4⟩, ⟨1, .fin 1⟩]

/-- An index whose last event for `s_1_k` is the `PROBLEM` of seed scenario 1. -/
def problemIndex : LastEvents ExactFloat :=
  LastEvents.empty.Set "s_1_k" { sampleEvent with Status := "PROBLEM", CurrentStep := 1 }

/-- A later event for the same id: the sample of time 400. -/
def laterEvent : Event ExactFloat := { sampleEvent with EventTime := 400 }

/-- The history of the later evaluation: every entry is newer than the first alert. -/
def laterHistory : List (HistoryData ExactFloat) :=
  [⟨400, .fin 7⟩, ⟨340, .fin 7⟩, ⟨280, .fin 7⟩]

/-- Four triggered evaluations, 400 seconds apart, of a rule with `maxStep = 2`. -/
def cappedCalls : List (Call ExactFloat) :=
  [⟨[⟨3, .fin 6⟩], true, 3, sampleEvent, 2⟩,
   ⟨[⟨400, .fin 7⟩], true, 400, laterEvent, 2⟩,
   ⟨[⟨800, .fin 7⟩], true, 800, { sampleEvent with EventTime := 800 }, 2⟩,
   ⟨[⟨1200, .fin 7⟩], true, 1200, { sampleEvent with EventTime := 1200 }, 2⟩]

/-- Two triggered evaluations of `max(#1) > 5`, one second apart (`now` 1000 and 1001), of
samples that were stamped 700 and 760 by the agent and delivered late. -/
def lateCalls : List (Call ExactFloat) :=
  [⟨[⟨700, .fin 6⟩], true, 1000, { sampleEvent with EventTime := 700 }, 3⟩,
   ⟨[⟨760, .fin 7⟩], true, 1001, { sampleEvent with EventTime := 760, LeftValue := .fin 7 }, 3⟩]

/-- The window of seed scenario 4: values 10, 8, 6, newest first. -/
def diffHistory : List (HistoryData ExactFloat) :=
  [⟨3, .fin 10⟩, ⟨2, .fin 8⟩, ⟨1, .fin 6⟩]

/-- The window of seed scenario 5: values 5, 0, 4, newest first. -/
def pdiffHistory : List (HistoryData ExactFloat) :=
  [⟨3, .fin 5⟩, ⟨2, .fin 0⟩, ⟨1, .fin 4⟩]

/-- A window whose older value is NaN. -/
def nanHistory : List (HistoryData ExactFloat) :=
  [⟨2, .fin 1⟩, ⟨1, .nan⟩]

/-! ## The functions `sum` and `avg` (`store/func.go`) -/

/-- The struct `SumFunction`. -/
structure SumFunction (F : Type) where
  Limit : Int
  Operator : String
  RightValue : F

/-- The struct `AvgFunction`. -/
structure AvgFunction (F : Type) where
  Limit : Int
  Operator : String
  RightValue : F

/-- The loop `for i := 0; i < this.Limit; i++ { sum += vs[i].Value }` of
`SumFunction.Compute`. -/
def SumFunction.loop {F : Type} (ops : Float64Ops F) (vs : List (HistoryData F)) :
    Nat → Nat → F → Option F
  | 0, _, sum => some sum
  | n + 1, i, sum =>
    match vs[i]? with
    | none => none
    | some v => SumFunction.loop ops vs n (i + 1) (ops.add sum v.Value)

/-- The method `SumFunction.Compute`. -/
def SumFunction.Compute {F : Type} (ops : Float64Ops F) (this : SumFunction F)
    (L : SafeLinkedList F) : Option (ComputeResult F) :=
  match L.HistoryData this.Limit with
  | (vs, false) => some ⟨vs, ops.zero, false, false⟩
  | (vs, true) =>
    match SumFunction.loop ops vs this.Limit.toNat 0 ops.zero with
    | none => none
    | some sum => some ⟨vs, sum, checkIsTriggered ops sum this.Operator this.RightValue, true⟩

/-- The loop of `AvgFunction.Compute`, the same summation. -/
def AvgFunction.loop {F : Type} (ops : Float64Ops F) (vs : List (HistoryData F)) :
    Nat → Nat → F → Option F
  | 0, _, sum => some sum
  | n + 1, i, sum =>
    match vs[i]? with
    | none => none
    | some v => AvgFunction.loop ops vs n (i + 1) (ops.add sum v.Value)

/-- The method `AvgFunction.Compute`: `leftValue = sum / float64(this.Limit)`. -/
def AvgFunction.Compute {F : Type} (ops : Float64Ops F) (this : AvgFunction F)
    (L : SafeLinkedList F) : Option (ComputeResult F) :=
  match L.HistoryData this.Limit with
  | (vs, false) => some ⟨vs, ops.zero, false, false⟩
  | (vs, true) =>
    match AvgFunction.loop ops vs this.Limit.toNat 0 ops.zero with
    | none => none
    | some sum =>
      let leftValue := ops.div sum (ops.ofInt this.Limit)
      some ⟨vs, leftValue, checkIsTriggered ops leftValue this.Operator this.RightValue, true⟩

/-! ## The rule parser (`ParseFuncFromString` in `store/func.go`) -/

/-- The bytes of a Go string holding the text `s`: its UTF-8 encoding, every byte written as
the character of that code (for ASCII text this is the list of its characters). `len`,
indexing and slicing of a Go string work on this list. -/
def goBytes (s : String) : List Char :=
  s.data.flatMap (fun c => (String.utf8EncodeChar c).map (fun b => Char.ofNat b.toNat))

/-- The library function `strings.Index(str, sep)` for a one-byte separator: the index of the
first byte equal to `sep`, or -1. -/
def stringsIndex (sep : Char) : List Char → Int
  | [] => -1
  | c :: cs => if c = sep then 0 else if stringsIndex sep cs < 0 then -1 else stringsIndex sep cs + 1

/-- The slice expression `str[lo:hi]`; it panics (`none`) unless `0 ≤ lo ≤ hi ≤ len(str)`. -/
def goSlice (str : List Char) (lo hi : Int) : Option (List Char) :=
  if 0 ≤ lo ∧ lo ≤ hi ∧ hi ≤ str.length then some ((str.drop lo.toNat).take (hi - lo).toNat)
  else none

/-- The value of a decimal digit byte. -/
def digitValue (c : Char) : Option Nat :=
  if '0' ≤ c ∧ c ≤ '9' then some (c.toNat - 48) else none

/-- The digit loop of `strconv.ParseUint` in base 10: `n = n * 10 + d` for every byte, an error
(`none`) at the first byte that is not a decimal digit. -/
def parseDigits : List Char → Nat → Option Nat
  | [], n => some n
  | c :: cs, n =>
    match digitValue c with
    | none => none
    | some d => parseDigits cs (n * 10 + d)

/-- The library function `strconv.ParseInt(s, 10, 64)`: an optional sign, then one or more
decimal digits whose value fits `int64`. The result `none` is a returned error (invalid text
or value out of range). -/
def ParseInt (s : List Char) : Option Int :=
  match s with
  | [] => none
  | c :: rest =>
    let digits := if c = '+' ∨ c = '-' then rest else s
    match digits with
    | [] => none
    | _ =>
      match parseDigits digits 0 with
      | none => none
      | some un =>
        if c = '-' then (if un > 9223372036854775808 then none else some (-(un : Int)))
        else (if un ≥ 9223372036854775808 then none else some (un : Int))

/-- The interface `Function`: one of the seven structs. -/
inductive Function (F : Type) where
  | max (f : MaxFunction F)
  | min (f : MinFunction F)
  | all (f : AllFunction F)
  | sum (f : SumFunction F)
  | avg (f : AvgFunction F)
  | diff (f : DiffFunction F)
  | pdiff (f : PDiffFunction F)

/-- The method `Compute` of the interface, dispatched on the struct. -/
def Function.Compute {F : Type} (ops : Float64Ops F) (fn : Function F) (L : SafeLinkedList F) :
    Option (ComputeResult F) :=
  match fn with
  | .max f => f.Compute ops L
  | .min f => f.Compute ops L
  | .all f => f.Compute ops L
  | .sum f => f.Compute ops L
  | .avg f => f.Compute ops L
  | .diff f => f.Compute ops L
  | .pdiff f => f.Compute ops L

/-- The field `Limit` of whichever struct the `Function` is. -/
def Function.Limit {F : Type} : Function F → Int
  | .max f => f.Limit
  | .min f => f.Limit
  | .all f => f.Limit
  | .sum f => f.Limit
  | .avg f => f.Limit
  | .diff f => f.Limit
  | .pdiff f => f.Limit

/-- The errors that `ParseFuncFromString` returns: the error of `strconv.ParseInt`, or
`fmt.Errorf("not_supported_method")`. -/
inductive ParseFailure where
  | parseInt
  | notSupportedMethod
deriving DecidableEq, Repr

/-- The function `ParseFuncFromString` on the bytes `str` of its argument. The result `none`
is a run-time panic (slice bounds out of range), `some (.error e)` is `(nil, err)` and
`some (.ok fn)` is `(fn, nil)`. -/
def ParseFuncFromString {F : Type} (str : List Char) (operator : String) (rightValue : F) :
    Option (Except ParseFailure (Function F)) :=
  let idx := stringsIndex '#' str
  match goSlice str (idx + 1) (str.length - 1) with
  | none => none
  | some digits =>
    match ParseInt digits with
    | none => some (.error .parseInt)
    | some limit =>
      match goSlice str 0 (idx - 1) with
      | none => none
      | some name =>
        if name = goBytes "max" then some (.ok (.max ⟨limit, operator, rightValue⟩))
        else if name = goBytes "min" then some (.ok (.min ⟨limit, operator, rightValue⟩))
        else if name = goBytes "all" then some (.ok (.all ⟨limit, operator, rightValue⟩))
        else if name = goBytes "sum" then some (.ok (.sum ⟨limit, operator, rightValue⟩))
        else if name = goBytes "avg" then some (.ok (.avg ⟨limit, operator, rightValue⟩))
        else if name = goBytes "diff" then some (.ok (.diff ⟨limit, operator, rightValue⟩))
        else if name = goBytes "pdiff" then some (.ok (.pdiff ⟨limit, operator, rightValue⟩))
        else some (.error .notSupportedMethod)

/-- The seven function names that `ParseFuncFromString` knows, as bytes. -/
def functionNames : List (List Char) :=
  [goBytes "max", goBytes "min", goBytes "all", goBytes "sum", goBytes "avg", goBytes "diff",
    goBytes "pdiff"]

/-! ## Judging one rule (`store/judge.go`) -/

/-- The fields of `model.JudgeItem` that the judge reads. -/
structure JudgeItem (F : Type) where
  Endpoint : String
  Metric : String
  Value : F
  Timestamp : Int
  JudgeType : String
  Tags : List (String × String)
deriving DecidableEq, Repr

/-- The window size that `Compute` asks the snapshot for: `this.Limit`, and `this.Limit + 1`
for `diff` and `pdiff`. -/
def Function.windowSize {F : Type} : Function F → Int
  | .diff f => wrap64 (f.Limit + 1)
  | .pdiff f => wrap64 (f.Limit + 1)
  | fn => fn.Limit

/-- The function `judgeItemWithStrategy`. `PrimaryKey` is the method `firstItem.PrimaryKey()`
of the package `model`. A parse error is logged and nothing else happens; without enough
history nothing happens; otherwise the event is built and handed to `sendEventIfNeed`. -/
def judgeItemWithStrategy {F : Type} (ops : Float64Ops F) (MinInterval : Int)
    (PrimaryKey : JudgeItem F → String) (st : LastEvents F) (L : SafeLinkedList F)
    (strategy : Strategy F) (firstItem : JudgeItem F) (now : Int) :
    Option (LastEvents F × List (Event F)) :=
  match ParseFuncFromString (goBytes strategy.Func) strategy.Operator strategy.RightValue with
  | none => none
  | some (.error _) => some (st, [])
  | some (.ok fn) =>
    match fn.Compute ops L with
    | none => none
    | some r =>
      if !r.isEnough then some (st, [])
      else
        let event : Event F :=
          { Id := "s_" ++ toString strategy.Id ++ "_" ++ PrimaryKey firstItem
            Status := ""
            Endpoint := firstItem.Endpoint
            LeftValue := r.leftValue
            CurrentStep := 0
            EventTime := firstItem.Timestamp
            PushedTags := firstItem.Tags
            Strategy := some strategy }
        sendEventIfNeed MinInterval st r.vs r.isTriggered now event strategy.MaxStep

/-- The function `judgeItemWithExpression`. -/
def judgeItemWithExpression {F : Type} (ops : Float64Ops F) (MinInterval : Int)
    (PrimaryKey : JudgeItem F → String) (st : LastEvents F) (L : SafeLinkedList F)
    (expression : Expression F) (firstItem : JudgeItem F) (now : Int) :
    Option (LastEvents F × List (Event F)) :=
  match ParseFuncFromString (goBytes expression.Func) expression.Operator
      expression.RightValue with
  | none => none
  | some (.error _) => some (st, [])
  | some (.ok fn) =>
    match fn.Compute ops L with
    | none => none
    | some r =>
      if !r.isEnough then some (st, [])
      else
        let event : Event F :=
          { Id := "e_" ++ toString expression.Id ++ "_" ++ PrimaryKey firstItem
            Status := ""
            Endpoint := firstItem.Endpoint
            LeftValue := r.leftValue
            CurrentStep := 0
            EventTime := firstItem.Timestamp
            PushedTags := firstItem.Tags
            Expression := some expression }
        sendEventIfNeed MinInterval st r.vs r.isTriggered now event expression.MaxStep

/-- The strategy `max(#3) > 5` with `maxStep = 3` of seed scenario 1. -/
def sampleStrategy : Strategy ExactFloat :=
  { Id := 1, Metric := "cpu.idle", Tags := [], Func := "max(#3)", Operator := ">",
    RightValue := .fin 5, MaxStep := 3 }

/-- The expression `max(#3) > 5` on `cpu.idle` with the tag `service=web`. -/
def sampleExpression : Expression ExactFloat :=
  { Id := 7, Metric := "cpu.idle", Tags := [("service", "web")], Func := "max(#3)",
    Operator := ">", RightValue := .fin 5, MaxStep := 3 }

/-- The sample of time 3 and value 6 of seed scenario 1. -/
def sampleItem : JudgeItem ExactFloat :=
  { Endpoint := "host1", Metric := "cpu.idle", Value := .fin 6, Timestamp := 3,
    JudgeType := "GAUGE", Tags := [("service", "web"), ("host", "h1")] }

/-- A window that holds one entry only. -/
def shortHistory : List (HistoryData ExactFloat) := [⟨3, .fin 6⟩]

/-! ## Matching rules against a sample (`store/judge.go`) -/

/-- The assignment `m[k] = v` on a map given by its entries. -/
def mapSet (m : List (String × String)) (k v : String) : List (String × String) :=
  (k, v) :: m.filter (fun e => e.1 ≠ k)

/-- The loop `for tagKey, tagVal := range tags { if myVal, exists := itemTags[tagKey];
!exists || myVal != tagVal { related = false; break } }` of `CheckStrategy` and of
`filterRelatedExpressions`; the result is `related`. -/
def relatedLoop (itemTags : List (String × String)) : List (String × String) → Bool
  | [] => true
  | (tagKey, tagVal) :: rest =>
    match itemTags.lookup tagKey with
    | none => false
    | some myVal => if myVal ≠ tagVal then false else relatedLoop itemTags rest

/-- The subset match of the specification: every tag of the rule is present in the tags of the
sample with the identical value. -/
def SubsetMatch (ruleTags itemTags : List (String × String)) : Prop :=
  ∀ e ∈ ruleTags, itemTags.lookup e.1 = some e.2

instance (ruleTags itemTags : List (String × String)) :
    Decidable (SubsetMatch ruleTags itemTags) := by
  unfold SubsetMatch; exact inferInstance

/-- Judging the rules of a list one after the other with `judge`, which may panic. -/
def judgeEach {S R : Type} (judge : S → R → Option S) : List R → S → Option S
  | [], st => some st
  | r :: rest, st =>
    match judge st r with
    | none => none
    | some st1 => judgeEach judge rest st1

/-- The loop over the strategies in `CheckStrategy`: a strategy that is not related is
skipped, a related one is judged. -/
def CheckStrategyWith.loop {F S : Type} (judge : S → Strategy F → Option S)
    (firstItem : JudgeItem F) : List (Strategy F) → S → Option S
  | [], st => some st
  | s :: rest, st =>
    if relatedLoop firstItem.Tags s.Tags then
      match judge st s with
      | none => none
      | some st1 => CheckStrategyWith.loop judge firstItem rest st1
    else CheckStrategyWith.loop judge firstItem rest st

/-- The function `CheckStrategy`, with the call `judgeItemWithStrategy(L, s, firstItem, now)`
as the parameter `judge` acting on a state `S`. `StrategyMap` is `g.StrategyMap.Get()`. -/
def CheckStrategyWith {F S : Type} (StrategyMap : String → Option (List (Strategy F)))
    (judge : S → Strategy F → Option S) (st : S) (firstItem : JudgeItem F) : Option S :=
  let key := firstItem.Endpoint ++ "/" ++ firstItem.Metric
  match StrategyMap key with
  | none => some st
  | some strategies => CheckStrategyWith.loop judge firstItem strategies st

/-- The function `copyItemTags`: a new map with `endpoint` set to the endpoint of the item,
into which every tag of the item is then copied. -/
def copyItemTags {F : Type} (item : JudgeItem F) : List (String × String) :=
  item.Tags.foldl (fun ret e => mapSet ret e.1 e.2) [("endpoint", item.Endpoint)]

/-- The tags that `filterRelatedExpressions` matches an expression against: a copy with the
endpoint when the expression has an `endpoint` tag, the tags of the item otherwise. -/
def filterRelatedExpressions.itemTagsCopy {F : Type} (exp : Expression F)
    (firstItem : JudgeItem F) : List (String × String) :=
  if (exp.Tags.lookup "endpoint").isSome then copyItemTags firstItem else firstItem.Tags

/-- The function `filterRelatedExpressions`: the related expressions, in order. -/
def filterRelatedExpressions {F : Type} (expressions : List (Expression F))
    (firstItem : JudgeItem F) : List (Expression F) :=
  expressions.filter (fun exp =>
    relatedLoop (filterRelatedExpressions.itemTagsCopy exp firstItem) exp.Tags)

/-- The function `buildKeysFromMetricAndTags`: one key per tag, then the endpoint key. -/
def buildKeysFromMetricAndTags {F : Type} (item : JudgeItem F) : List String :=
  item.Tags.map (fun e => item.Metric ++ "/" ++ e.1 ++ "=" ++ e.2) ++
    [item.Metric ++ "/endpoint=" ++ item.Endpoint]

/-- The inner loop of `CheckExpression` over the related expressions of one key: an
expression whose id is in `handledExpression` is skipped, the others are recorded and
judged. -/
def CheckExpressionWith.inner {F S : Type} (judge : S → Expression F → Option S) :
    List (Expression F) → List Int → S → Option (List Int × S)
  | [], handled, st => some (handled, st)
  | exp :: rest, handled, st =>
    if exp.Id ∈ handled then CheckExpressionWith.inner judge rest handled st
    else
      match judge st exp with
      | none => none
      | some st1 => CheckExpressionWith.inner judge rest (exp.Id :: handled) st1

/-- The outer loop of `CheckExpression` over the keys. -/
def CheckExpressionWith.outer {F S : Type}
    (ExpressionMap : String → Option (List (Expression F)))
    (judge : S → Expression F → Option S) (firstItem : JudgeItem F) :
    List String → List Int → S → Option (List Int × S)
  | [], handled, st => some (handled, st)
  | key :: keys, handled, st =>
    match ExpressionMap key with
    | none => CheckExpressionWith.outer ExpressionMap judge firstItem keys handled st
    | some expressions =>
      match CheckExpressionWith.inner judge (filterRelatedExpressions expressions firstItem)
          handled st with
      | none => none
      | some (handled1, st1) =>
        CheckExpressionWith.outer ExpressionMap judge firstItem keys handled1 st1

/-- The function `CheckExpression`, with the call `judgeItemWithExpression(L, exp, firstItem,
now)` as the parameter `judge`. `ExpressionMap` is `g.ExpressionMap.Get()`. -/
def CheckExpressionWith {F S : Type} (ExpressionMap : String → Option (List (Expression F)))
    (judge : S → Expression F → Option S) (st : S) (firstItem : JudgeItem F) : Option S :=
  let keys := buildKeysFromMetricAndTags firstItem
  if keys.length = 0 then some st
  else
    (CheckExpressionWith.outer ExpressionMap judge firstItem keys [] st).map Prod.snd

/-- The function `CheckStrategy`: the state is the index and the events sent so far. -/
def CheckStrategy {F : Type} (ops : Float64Ops F) (MinInterval : Int)
    (PrimaryKey : JudgeItem F → String) (StrategyMap : String → Option (List (Strategy F)))
    (st : LastEvents F × List (Event F)) (L : SafeLinkedList F) (firstItem : JudgeItem F)
    (now : Int) : Option (LastEvents F × List (Event F)) :=
  CheckStrategyWith StrategyMap
    (fun st s =>
      (judgeItemWithStrategy ops MinInterval PrimaryKey st.1 L s firstItem now).map
        (fun r => (r.1, st.2 ++ r.2)))
    st firstItem

/-- The function `CheckExpression`. -/
def CheckExpression {F : Type} (ops : Float64Ops F) (MinInterval : Int)
    (PrimaryKey : JudgeItem F → String)
    (ExpressionMap : String → Option (List (Expression F)))
    (st : LastEvents F × List (Event F)) (L : SafeLinkedList F) (firstItem : JudgeItem F)
    (now : Int) : Option (LastEvents F × List (Event F)) :=
  CheckExpressionWith ExpressionMap
    (fun st e =>
      (judgeItemWithExpression ops MinInterval PrimaryKey st.1 L e firstItem now).map
        (fun r => (r.1, st.2 ++ r.2)))
    st firstItem

/-- The judge that only records which rules it is called on. -/
def recordCall {R : Type} (log : List R) (r : R) : Option (List R) := some (log ++ [r])

/-- A sample of `host1` that carries a tag named `endpoint` with the value `host2`. -/
def taggedItem : JudgeItem ExactFloat :=
  { Endpoint := "host1", Metric := "cpu.idle", Value := .fin 6, Timestamp := 3,
    JudgeType := "GAUGE", Tags := [("endpoint", "host2")] }

/-- An expression for the samples of the endpoint `host2`. -/
def host2Expression : Expression ExactFloat :=
  { Id := 8, Metric := "cpu.idle", Tags := [("endpoint", "host2")], Func := "max(#3)",
    Operator := ">", RightValue := .fin 5, MaxStep := 3 }

/-- An expression for the samples of the endpoint `host1`. -/
def host1Expression : Expression ExactFloat :=
  { Id := 9, Metric := "cpu.idle", Tags := [("endpoint", "host1")], Func := "max(#3)",
    Operator := ">", RightValue := .fin 5, MaxStep := 3 }

/-- The invariant of the index: every entry is stored under its own event id, has the status
`PROBLEM` or `OK` and a step of at least 1. -/
def WellFormedIndex {F : Type} (st : LastEvents F) : Prop :=
  ∀ id e, st.Get id = some e →
    e.Id = id ∧ (e.Status = "PROBLEM" ∨ e.Status = "OK") ∧ 1 ≤ e.CurrentStep

/-- An expression index for `cpu.idle`: the expressions 7, 9 and 8 under the key of the tag
`service=web`, and the expressions 9 and 7 under the key of the endpoint `host1`. -/
def sampleExpressionMap : String → Option (List (Expression ExactFloat)) := fun key =>
  if key = "cpu.idle/service=web" then some [sampleExpression, host1Expression, host2Expression]
  else if key = "cpu.idle/endpoint=host1" then some [host1Expression, sampleExpression]
  else none

/-! ## Lemmas -/

theorem wrap64_of_isInt64 {x : Int} (h : isInt64 x) : wrap64 x = x := by
  unfold isInt64 at h
  unfold wrap64
  omega

theorem status_problem_data : ("PROBLEM" : String).data = ['P', 'R', 'O', 'B', 'L', 'E', 'M'] := rfl

theorem status_ok_data : ("OK" : String).data = ['O', 'K'] := rfl

theorem sendEventIfNeed_not_triggered_ok {F : Type} (MinInterval : Int) (st : LastEvents F)
    (historyData : List (HistoryData F)) (now : Int) (event : Event F) (maxStep : Int)
    (last : Event F) (hlast : st.Get event.Id = some last)
    (hstatus : last.Status.data.head? = some 'O') :
    sendEventIfNeed MinInterval st historyData false now event maxStep = some (st, []) := by
  unfold sendEventIfNeed
  cases hd : last.Status.data with
  | nil => simp [hd] at hstatus
  | cons c rest =>
    simp [hd] at hstatus
    simp [hlast, hd, hstatus]

theorem sendEventIfNeed_recovery_first {F : Type} (MinInterval : Int) (st : LastEvents F)
    (historyData : List (HistoryData F)) (now : Int) (event : Event F) (maxStep : Int)
    (last : Event F) (hlast : st.Get event.Id = some last)
    (hstatus : last.Status.data.head? = some 'P') :
    sendEventIfNeed MinInterval st historyData false now event maxStep =
      some (st.Set event.Id { event with Status := "OK", CurrentStep := 1 },
        [{ event with Status := "OK", CurrentStep := 1 }]) := by
  unfold sendEventIfNeed
  cases hd : last.Status.data with
  | nil => simp [hd] at hstatus
  | cons c rest =>
    simp [hd] at hstatus
    simp [hlast, hd, hstatus, sendEvent]

theorem runCalls_quiet {F : Type} (MinInterval : Int) (id : String) (st : LastEvents F)
    (last : Event F) (hlast : st.Get id = some last)
    (hstatus : last.Status.data.head? = some 'O') (calls : List (Call F))
    (hcalls : ∀ c ∈ calls, c.event.Id = id ∧ c.isTriggered = false) :
    runCalls MinInterval st calls = (st, []) := by
  induction calls with
  | nil => rfl
  | cons c cs ih =>
    have hc := hcalls c (List.mem_cons_self _ _)
    have h1 : sendEventIfNeed MinInterval st c.historyData c.isTriggered c.now c.event c.maxStep
        = some (st, []) := by
      rw [hc.2]
      exact sendEventIfNeed_not_triggered_ok MinInterval st _ _ _ _ last (by rw [hc.1]; exact hlast)
        hstatus
    have h2 := ih (fun c hc => hcalls c (List.mem_cons_of_mem _ hc))
    simp [runCalls, h1, h2]

theorem sendEventIfNeed_cases {F : Type} (MinInterval : Int) (st : LastEvents F)
    (historyData : List (HistoryData F)) (isTriggered : Bool) (now : Int) (event : Event F)
    (maxStep : Int) :
    sendEventIfNeed MinInterval st historyData isTriggered now event maxStep = none ∨
      sendEventIfNeed MinInterval st historyData isTriggered now event maxStep = some (st, []) ∨
      ∃ e, sendEventIfNeed MinInterval st historyData isTriggered now event maxStep =
          some (st.Set event.Id e, [e]) ∧ e.Id = event.Id ∧
        ((e.Status = "OK" ∧ e.CurrentStep = 1 ∧
            ∃ last, st.Get event.Id = some last ∧ last.Status.data.head? = some 'P') ∨
          (e.Status = "PROBLEM" ∧ e.CurrentStep = 1 ∧ maxStep ≠ 0 ∧
            ∀ last, st.Get event.Id = some last → last.Status.data.head? = some 'O') ∨
          (e.Status = "PROBLEM" ∧
            ∃ last, st.Get event.Id = some last ∧ last.Status.data.head? ≠ some 'O' ∧
              last.CurrentStep < maxStep ∧ MinInterval ≤ wrap64 (now - last.EventTime) ∧
              e.CurrentStep = wrap64 (last.CurrentStep + 1))) := by
  unfold sendEventIfNeed
  cases isTriggered with
  | true =>
    simp only [if_true]
    cases hget : st.Get event.Id with
    | none =>
      by_cases hm : maxStep = 0
      · simp [hm]
      · right; right
        exact ⟨{ event with Status := "PROBLEM", CurrentStep := 1 }, by simp [hm, sendEvent], rfl,
          Or.inr (Or.inl ⟨rfl, rfl, hm, by simp⟩)⟩
    | some last =>
      cases hd : last.Status.data with
      | nil => simp [hd]
      | cons c rest =>
        by_cases hc : c = 'O'
        · by_cases hm : maxStep = 0
          · simp [hd, hm, hc]
          · right; right
            exact ⟨{ event with Status := "PROBLEM", CurrentStep := 1 },
              by simp [hd, hm, hc, sendEvent], rfl,
              Or.inr (Or.inl ⟨rfl, rfl, hm, by simp [hd, hc]⟩)⟩
        · by_cases h1 : last.CurrentStep ≥ maxStep
          · simp [hd, hc, h1]
          · cases hh : historyData.getLast? with
            | none => simp [hd, hc, h1]
            | some oldest =>
              by_cases h2 : oldest.Timestamp ≤ last.EventTime
              · simp [hd, hc, h1, h2]
              · by_cases h3 : wrap64 (now - last.EventTime) < MinInterval
                · simp [hd, hc, h1, h2, h3]
                · right; right
                  exact ⟨{ event with Status := "PROBLEM",
                                      CurrentStep := wrap64 (last.CurrentStep + 1) },
                    by simp [hd, hc, h1, h2, h3, sendEvent], rfl,
                    Or.inr (Or.inr ⟨rfl, last, rfl, by simp [hd, hc], not_le.mp h1, not_lt.mp h3,
                      rfl⟩)⟩
  | false =>
    simp only [Bool.false_eq_true, if_false]
    cases hget : st.Get event.Id with
    | none => simp
    | some last =>
      cases hd : last.Status.data with
      | nil => simp [hd]
      | cons c rest =>
        by_cases hc : c = 'P'
        · right; right
          exact ⟨{ event with Status := "OK", CurrentStep := 1 }, by simp [hd, hc, sendEvent], rfl,
            Or.inl ⟨rfl, rfl, last, rfl, by simp [hd, hc]⟩⟩
        · simp [hd, hc]

theorem TraceFrom_mono {F : Type} {R S : Option (Event F) → Int × Event F → Prop}
    (h : ∀ p x, R p x → S p x) (prev : Option (Event F)) (tr : List (Int × Event F))
    (ht : TraceFrom R prev tr) : TraceFrom S prev tr := by
  induction tr generalizing prev with
  | nil => trivial
  | cons x xs ih => exact ⟨h _ _ ht.1, ih _ ht.2⟩

theorem StepRel_mono {F : Type} (MinInterval : Int) (id : String) (cs ds : List (Call F))
    (hsub : ∀ c ∈ cs, c ∈ ds) (prev : Option (Event F)) (b : Int × Event F)
    (h : StepRel MinInterval id cs prev b) : StepRel MinInterval id ds prev b := by
  obtain ⟨hid, h | ⟨hs, h1, ⟨c, hc, hm⟩, ho⟩ | ⟨hs, last, hl, ho, c, hc, rest⟩⟩ := h
  · exact ⟨hid, Or.inl h⟩
  · exact ⟨hid, Or.inr (Or.inl ⟨hs, h1, ⟨c, hsub c hc, hm⟩, ho⟩)⟩
  · exact ⟨hid, Or.inr (Or.inr ⟨hs, last, hl, ho, c, hsub c hc, rest⟩)⟩

theorem runCalls_trace {F : Type} (MinInterval : Int) (id : String) (calls : List (Call F))
    (st : LastEvents F) (hid : ∀ c ∈ calls, c.event.Id = id) :
    TraceFrom (StepRel MinInterval id calls) (st.Get id) (runCalls MinInterval st calls).2 := by
  induction calls generalizing st with
  | nil => trivial
  | cons c cs ih =>
    have hcid : c.event.Id = id := hid c (List.mem_cons_self _ _)
    have hmono : ∀ st1 : LastEvents F,
        TraceFrom (StepRel MinInterval id (c :: cs)) (st1.Get id)
          (runCalls MinInterval st1 cs).2 := fun st1 =>
      TraceFrom_mono (StepRel_mono MinInterval id cs (c :: cs)
        (fun d hd => List.mem_cons_of_mem _ hd)) _ _
        (ih st1 (fun d hd => hid d (List.mem_cons_of_mem _ hd)))
    rcases sendEventIfNeed_cases MinInterval st c.historyData c.isTriggered c.now c.event
        c.maxStep with h | h | ⟨e, h, heid, hrel⟩
    · simp only [runCalls, h]; trivial
    · simp only [runCalls, h, List.map_nil, List.nil_append]
      exact hmono st
    · simp only [runCalls, h, List.map_cons, List.map_nil, List.singleton_append]
      have hget : (st.Set c.event.Id e).Get id = some e := by
        simp [LastEvents.Set, LastEvents.Get, hcid]
      refine ⟨⟨heid.trans hcid, ?_⟩, ?_⟩
      · rw [hcid] at hrel
        rcases hrel with h1 | ⟨hs, h1, hm, ho⟩ | ⟨hs, last, hl, ho, h2, h3, h4⟩
        · exact Or.inl h1
        · exact Or.inr (Or.inl ⟨hs, h1, ⟨c, List.mem_cons_self _ _, rfl, hm⟩, ho⟩)
        · exact Or.inr (Or.inr ⟨hs, last, hl, ho, c, List.mem_cons_self _ _, rfl, h2, h3, h4⟩)
      · have := hmono (st.Set c.event.Id e)
        rw [hget] at this
        exact this

theorem TraceFrom_append {F : Type} {R : Option (Event F) → Int × Event F → Prop}
    (pre : List (Int × Event F)) (a b : Int × Event F) (post : List (Int × Event F))
    (prev : Option (Event F)) (ht : TraceFrom R prev (pre ++ a :: b :: post)) :
    R (some a.2) b := by
  induction pre generalizing prev with
  | nil => exact ht.2.1
  | cons x xs ih => exact ih (some x.2) ht.2

theorem status_ok_ne_problem {F : Type} (e : Event F) (h1 : e.Status = "OK")
    (h2 : e.Status = "PROBLEM") : False := by
  rw [h1] at h2
  exact absurd h2 (by decide)

theorem StepRel_bounded {F : Type} (MinInterval N : Int) (id : String) (calls : List (Call F))
    (hN0 : 0 ≤ N) (hN : isInt64 N) (hmax : ∀ c ∈ calls, c.maxStep = N)
    (prev : Option (Event F)) (x : Int × Event F) (hprev : StepBounded N prev)
    (hrel : StepRel MinInterval id calls prev x) :
    StepBounded N (some x.2) ∧
      (x.2.Status = "PROBLEM" → ∀ s, ActiveStep prev s → x.2.CurrentStep = s + 1) := by
  obtain ⟨_, ⟨hs, h1, _⟩ | ⟨hs, h1, ⟨c, hc, _, hm⟩, ho⟩ | ⟨hs, last, hl, ho, c, hc, _, h2, _, h4⟩⟩ := hrel
  · refine ⟨?_, fun hp => (status_ok_ne_problem _ hs hp).elim⟩
    intro last hl
    cases hl
    exact Or.inl hs
  · have hN1 : 1 ≤ N := by
      have := hmax c hc
      omega
    refine ⟨?_, ?_⟩
    · intro last hl
      cases hl
      exact Or.inr ⟨hs, by omega, by omega⟩
    · intro _ s hbase
      rcases hbase with ⟨last, hl, hls, _⟩ | ⟨_, hs0⟩
      · have := ho last hl
        rw [hls] at this
        exact absurd this (by decide)
      · omega
  · have hst := hprev last hl
    rcases hst with hok | ⟨hp, hlo, _⟩
    · rw [hok] at ho
      exact absurd rfl ho
    · have hlt : last.CurrentStep < N := by
        have := hmax c hc
        omega
      have hw : wrap64 (last.CurrentStep + 1) = last.CurrentStep + 1 := by
        apply wrap64_of_isInt64
        unfold isInt64 at *
        omega
      rw [hw] at h4
      refine ⟨?_, ?_⟩
      · intro l hl2
        cases hl2
        exact Or.inr ⟨hs, by omega, by omega⟩
      · intro _ s hbase
        rcases hbase with ⟨l2, hl2, _, hstep⟩ | ⟨hall, _⟩
        · rw [hl] at hl2
          cases hl2
          omega
        · exact (status_ok_ne_problem _ (hall last hl) hp).elim

theorem ActiveStep_exists {F : Type} (N : Int) (prev : Option (Event F))
    (hprev : StepBounded N prev) (hN0 : 0 ≤ N) : ∃ s, ActiveStep prev s ∧ 0 ≤ s ∧ s ≤ N := by
  cases prev with
  | none => exact ⟨0, Or.inr ⟨by simp, rfl⟩, le_refl _, hN0⟩
  | some last =>
    rcases hprev last rfl with hok | ⟨hp, h1, h2⟩
    · exact ⟨0, Or.inr ⟨by intro l hl; cases hl; exact hok, rfl⟩, le_refl _, hN0⟩
    · exact ⟨last.CurrentStep, Or.inl ⟨last, rfl, hp, rfl⟩, by omega, h2⟩

theorem ActiveStep_le {F : Type} (N : Int) (prev : Option (Event F))
    (hprev : StepBounded N prev) (hN0 : 0 ≤ N) (s : Int) (hs : ActiveStep prev s) : s ≤ N := by
  rcases hs with ⟨last, hl, hp, hstep⟩ | ⟨_, hs0⟩
  · rcases hprev last hl with hok | ⟨_, _, h2⟩
    · exact (status_ok_ne_problem _ hok hp).elim
    · omega
  · omega

theorem TraceFrom_bounded {F : Type} (MinInterval N : Int) (id : String) (calls : List (Call F))
    (hN0 : 0 ≤ N) (hN : isInt64 N) (hmax : ∀ c ∈ calls, c.maxStep = N)
    (tr : List (Int × Event F)) (prev : Option (Event F)) (hprev : StepBounded N prev)
    (ht : TraceFrom (StepRel MinInterval id calls) prev tr) :
    ∀ x ∈ tr, StepBounded N (some x.2) := by
  induction tr generalizing prev with
  | nil => simp
  | cons y ys ih =>
    have hy := (StepRel_bounded MinInterval N id calls hN0 hN hmax prev y hprev ht.1).1
    intro x hx
    rcases List.mem_cons.mp hx with rfl | hx
    · exact hy
    · exact ih (some y.2) hy ht.2 x hx

theorem TraceFrom_skip {F : Type} (MinInterval N : Int) (id : String) (calls : List (Call F))
    (hN0 : 0 ≤ N) (hN : isInt64 N) (hmax : ∀ c ∈ calls, c.maxStep = N)
    (pre rest : List (Int × Event F)) (prev : Option (Event F)) (hprev : StepBounded N prev)
    (ht : TraceFrom (StepRel MinInterval id calls) prev (pre ++ rest)) :
    ∃ p, StepBounded N p ∧ TraceFrom (StepRel MinInterval id calls) p rest := by
  induction pre generalizing prev with
  | nil => exact ⟨prev, hprev, ht⟩
  | cons y ys ih =>
    exact ih (some y.2) (StepRel_bounded MinInterval N id calls hN0 hN hmax prev y hprev ht.1).1
      ht.2

theorem TraceFrom_segment {F : Type} (MinInterval N : Int) (id : String) (calls : List (Call F))
    (hN0 : 0 ≤ N) (hN : isInt64 N) (hmax : ∀ c ∈ calls, c.maxStep = N)
    (seg post : List (Int × Event F)) (prev : Option (Event F)) (s : Int)
    (hprev : StepBounded N prev) (hs : ActiveStep prev s)
    (ht : TraceFrom (StepRel MinInterval id calls) prev (seg ++ post))
    (hseg : ∀ x ∈ seg, x.2.Status = "PROBLEM") : (seg.length : Int) + s ≤ N := by
  induction seg generalizing prev s with
  | nil => simpa using ActiveStep_le N prev hprev hN0 s hs
  | cons y ys ih =>
    have hy := StepRel_bounded MinInterval N id calls hN0 hN hmax prev y hprev ht.1
    have hyP : y.2.Status = "PROBLEM" := hseg y (List.mem_cons_self _ _)
    have hstep := hy.2 hyP s hs
    have := ih (some y.2) (s + 1) hy.1 (Or.inl ⟨y.2, rfl, hyP, hstep⟩) ht.2
      (fun x hx => hseg x (List.mem_cons_of_mem _ hx))
    simp only [List.length_cons, Nat.cast_add, Nat.cast_one]
    omega

theorem getElem?_some_of_lt {α : Type} (vs : List α) (i : Nat) (h : i < vs.length) :
    ∃ v, vs[i]? = some v := ⟨vs[i], List.getElem?_eq_getElem h⟩

theorem diffLoop_spec {F : Type} (ops : Float64Ops F) (this : DiffFunction F)
    (vs : List (HistoryData F)) (first : F) (n i : Nat) (lv : F) (t : Bool)
    (hlen : i + n ≤ vs.length) :
    ∃ lv1 t1, DiffFunction.loop ops this vs first n i lv t = some (lv1, t1) ∧
      ((t1 = true ∧ ∃ j v, i ≤ j ∧ j < i + n ∧ vs[j]? = some v ∧
          lv1 = ops.sub first v.Value ∧
          checkIsTriggered ops lv1 this.Operator this.RightValue = true ∧
          ∀ m w, i ≤ m → m < j → vs[m]? = some w →
            checkIsTriggered ops (ops.sub first w.Value) this.Operator this.RightValue = false) ∨
        ((∀ m w, i ≤ m → m < i + n → vs[m]? = some w →
            checkIsTriggered ops (ops.sub first w.Value) this.Operator this.RightValue = false) ∧
          ((n = 0 ∧ lv1 = lv ∧ t1 = t) ∨
            (0 < n ∧ t1 = false ∧ ∃ v, vs[i + n - 1]? = some v ∧
              lv1 = ops.sub first v.Value)))) := by
  induction n generalizing i lv t with
  | zero =>
    refine ⟨lv, t, rfl, Or.inr ⟨?_, Or.inl ⟨rfl, rfl, rfl⟩⟩⟩
    intro m w h1 h2
    omega
  | succ n ih =>
    obtain ⟨v, hv⟩ := getElem?_some_of_lt vs i (by omega)
    by_cases hc : checkIsTriggered ops (ops.sub first v.Value) this.Operator this.RightValue = true
    · refine ⟨ops.sub first v.Value, true, by simp [DiffFunction.loop, hv, hc], Or.inl ⟨rfl, i, v,
        le_refl _, by omega, hv, rfl, hc, ?_⟩⟩
      intro m w h1 h2
      omega
    · have hc2 : checkIsTriggered ops (ops.sub first v.Value) this.Operator this.RightValue
          = false := by simpa using hc
      obtain ⟨lv1, t1, hrun, hres⟩ := ih (i + 1) (ops.sub first v.Value) false (by omega)
      refine ⟨lv1, t1, by simp [DiffFunction.loop, hv, hc2, hrun], ?_⟩
      have hprev : ∀ m w, i ≤ m → m < i + 1 → vs[m]? = some w →
          checkIsTriggered ops (ops.sub first w.Value) this.Operator this.RightValue = false := by
        intro m w h1 h2 hw
        have : m = i := by omega
        subst this
        rw [hv] at hw
        cases hw
        exact hc2
      rcases hres with ⟨ht, j, w, h1, h2, h3, h4, h5, h6⟩ | ⟨hall, hlast⟩
      · refine Or.inl ⟨ht, j, w, by omega, by omega, h3, h4, h5, ?_⟩
        intro m u hm1 hm2 hu
        by_cases hmi : m < i + 1
        · exact hprev m u hm1 hmi hu
        · exact h6 m u (by omega) hm2 hu
      · refine Or.inr ⟨?_, Or.inr ⟨by omega, ?_⟩⟩
        · intro m u hm1 hm2 hu
          by_cases hmi : m < i + 1
          · exact hprev m u hm1 hmi hu
          · exact hall m u (by omega) (by omega) hu
        · rcases hlast with ⟨hn, h1, h2⟩ | ⟨hn, h1, u, hu, h2⟩
          · subst hn
            exact ⟨h2, v, by simpa using hv, h1⟩
          · refine ⟨h1, u, ?_, h2⟩
            have : i + (n + 1) - 1 = i + 1 + n - 1 := by omega
            rw [this]
            exact hu

theorem pdiffLoop_spec {F : Type} (ops : Float64Ops F) (this : PDiffFunction F)
    (vs : List (HistoryData F)) (first : F) (n i : Nat) (lv : F) (t : Bool)
    (hlen : i + n ≤ vs.length) :
    ∃ lv1 t1, PDiffFunction.loop ops this vs first n i lv t = some (lv1, t1) ∧
      ((t1 = true ∧ ∃ j v, i ≤ j ∧ j < i + n ∧ vs[j]? = some v ∧
          ops.eq v.Value ops.zero = false ∧ lv1 = PDiffFunction.percent ops first v.Value ∧
          checkIsTriggered ops lv1 this.Operator this.RightValue = true ∧
          ∀ m w, i ≤ m → m < j → vs[m]? = some w → ops.eq w.Value ops.zero = false →
            checkIsTriggered ops (PDiffFunction.percent ops first w.Value) this.Operator
              this.RightValue = false) ∨
        ((∀ m w, i ≤ m → m < i + n → vs[m]? = some w → ops.eq w.Value ops.zero = false →
            checkIsTriggered ops (PDiffFunction.percent ops first w.Value) this.Operator
              this.RightValue = false) ∧
          (((∀ m w, i ≤ m → m < i + n → vs[m]? = some w → ops.eq w.Value ops.zero = true) ∧
              lv1 = lv ∧ t1 = t) ∨
            (t1 = false ∧ ∃ j v, i ≤ j ∧ j < i + n ∧ vs[j]? = some v ∧
              ops.eq v.Value ops.zero = false ∧
              lv1 = PDiffFunction.percent ops first v.Value ∧
              ∀ m w, j < m → m < i + n → vs[m]? = some w →
                ops.eq w.Value ops.zero = true)))) := by
  induction n generalizing i lv t with
  | zero =>
    refine ⟨lv, t, rfl, Or.inr ⟨?_, Or.inl ⟨?_, rfl, rfl⟩⟩⟩
    · intro m w h1 h2
      omega
    · intro m w h1 h2
      omega
  | succ n ih =>
    obtain ⟨v, hv⟩ := getElem?_some_of_lt vs i (by omega)
    have hone : ∀ (P : HistoryData F → Prop), P v →
        ∀ m w, i ≤ m → m < i + 1 → vs[m]? = some w → P w := by
      intro P hP m w h1 h2 hw
      have : m = i := by omega
      subst this
      rw [hv] at hw
      cases hw
      exact hP
    by_cases hz : ops.eq v.Value ops.zero = true
    · obtain ⟨lv1, t1, hrun, hres⟩ := ih (i + 1) lv t (by omega)
      refine ⟨lv1, t1, by simp [PDiffFunction.loop, hv, hz, hrun], ?_⟩
      rcases hres with ⟨ht, j, w, h1, h2, h3, h4, h5, h6, h7⟩ | ⟨hall, hlast⟩
      · refine Or.inl ⟨ht, j, w, by omega, by omega, h3, h4, h5, h6, ?_⟩
        intro m u hm1 hm2 hu hu0
        by_cases hmi : m < i + 1
        · have := hone (fun x => ops.eq x.Value ops.zero = true) hz m u hm1 hmi hu
          rw [this] at hu0
          cases hu0
        · exact h7 m u (by omega) hm2 hu hu0
      · refine Or.inr ⟨?_, ?_⟩
        · intro m u hm1 hm2 hu hu0
          by_cases hmi : m < i + 1
          · have := hone (fun x => ops.eq x.Value ops.zero = true) hz m u hm1 hmi hu
            rw [this] at hu0
            cases hu0
          · exact hall m u (by omega) (by omega) hu hu0
        · rcases hlast with ⟨hzero, h1, h2⟩ | ⟨h1, j, u, hj1, hj2, hu, hu0, hlv, hafter⟩
          · refine Or.inl ⟨?_, h1, h2⟩
            intro m u hm1 hm2 hu
            by_cases hmi : m < i + 1
            · exact hone (fun x => ops.eq x.Value ops.zero = true) hz m u hm1 hmi hu
            · exact hzero m u (by omega) (by omega) hu
          · exact Or.inr ⟨h1, j, u, by omega, by omega, hu, hu0, hlv,
              fun m w hm1 hm2 hw => hafter m w hm1 (by omega) hw⟩
    · have hz2 : ops.eq v.Value ops.zero = false := by simpa using hz
      by_cases hc : checkIsTriggered ops (PDiffFunction.percent ops first v.Value) this.Operator
          this.RightValue = true
      · refine ⟨PDiffFunction.percent ops first v.Value, true,
          by simp [PDiffFunction.loop, hv, hz2, hc], Or.inl ⟨rfl, i, v, le_refl _, by omega, hv,
            hz2, rfl, hc, ?_⟩⟩
        intro m w h1 h2
        omega
      · have hc2 : checkIsTriggered ops (PDiffFunction.percent ops first v.Value) this.Operator
            this.RightValue = false := by simpa using hc
        obtain ⟨lv1, t1, hrun, hres⟩ :=
          ih (i + 1) (PDiffFunction.percent ops first v.Value) false (by omega)
        refine ⟨lv1, t1, by simp [PDiffFunction.loop, hv, hz2, hc2, hrun], ?_⟩
        have hprev : ∀ m w, i ≤ m → m < i + 1 → vs[m]? = some w →
            checkIsTriggered ops (PDiffFunction.percent ops first w.Value) this.Operator
              this.RightValue = false :=
          hone (fun x => checkIsTriggered ops (PDiffFunction.percent ops first x.Value)
            this.Operator this.RightValue = false) hc2
        rcases hres with ⟨ht, j, w, h1, h2, h3, h4, h5, h6, h7⟩ | ⟨hall, hlast⟩
        · refine Or.inl ⟨ht, j, w, by omega, by omega, h3, h4, h5, h6, ?_⟩
          intro m u hm1 hm2 hu hu0
          by_cases hmi : m < i + 1
          · exact hprev m u hm1 hmi hu
          · exact h7 m u (by omega) hm2 hu hu0
        · refine Or.inr ⟨?_, Or.inr ?_⟩
          · intro m u hm1 hm2 hu hu0
            by_cases hmi : m < i + 1
            · exact hprev m u hm1 hmi hu
            · exact hall m u (by omega) (by omega) hu hu0
          · rcases hlast with ⟨hzero, h1, h2⟩ | ⟨h1, j, u, hj1, hj2, hu, hu0, hlv, hafter⟩
            · exact ⟨h2, i, v, le_refl _, by omega, hv, hz2, h1,
                fun m w hm1 hm2 hw => hzero m w (by omega) (by omega) hw⟩
            · exact ⟨h1, j, u, by omega, by omega, hu, hu0, hlv,
                fun m w hm1 hm2 hw => hafter m w hm1 (by omega) hw⟩

theorem pdiffLoop_div {F : Type} (ops : Float64Ops F) (this : PDiffFunction F)
    (vs : List (HistoryData F)) (first : F) (d : F → F → F)
    (hd : ∀ a b, ops.eq b ops.zero = false → d a b = ops.div a b)
    (n i : Nat) (lv : F) (t : Bool) :
    PDiffFunction.loop { ops with div := d } this vs first n i lv t =
      PDiffFunction.loop ops this vs first n i lv t := by
  induction n generalizing i lv t with
  | zero => rfl
  | succ n ih =>
    cases hv : vs[i]? with
    | none => simp [PDiffFunction.loop, hv]
    | some v =>
      by_cases hz : ops.eq v.Value ops.zero = true
      · simp [PDiffFunction.loop, hv, hz, ih]
      · have hz2 : ops.eq v.Value ops.zero = false := by simpa using hz
        have hp : PDiffFunction.percent { ops with div := d } first v.Value =
            PDiffFunction.percent ops first v.Value := by
          simp [PDiffFunction.percent, hd _ _ hz2]
        have hc : ∀ x, checkIsTriggered { ops with div := d } x this.Operator this.RightValue =
            checkIsTriggered ops x this.Operator this.RightValue := fun _ => rfl
        simp [PDiffFunction.loop, hv, hz2, hp, hc, ih]

theorem allLoop_spec {F : Type} (ops : Float64Ops F) (this : AllFunction F)
    (vs : List (HistoryData F)) (n i : Nat) (t : Bool) (hlen : i + n ≤ vs.length) :
    ∃ t1, AllFunction.loop ops this vs n i t = some t1 ∧
      ((n = 0 ∧ t1 = t) ∨
        (0 < n ∧ (t1 = true ↔ ∀ m w, i ≤ m → m < i + n → vs[m]? = some w →
          checkIsTriggered ops w.Value this.Operator this.RightValue = true))) := by
  induction n generalizing i t with
  | zero => exact ⟨t, rfl, Or.inl ⟨rfl, rfl⟩⟩
  | succ n ih =>
    obtain ⟨v, hv⟩ := getElem?_some_of_lt vs i (by omega)
    by_cases hc : checkIsTriggered ops v.Value this.Operator this.RightValue = true
    · obtain ⟨t1, hrun, hres⟩ := ih (i + 1) true (by omega)
      refine ⟨t1, by simp [AllFunction.loop, hv, hc, hrun], Or.inr ⟨by omega, ?_⟩⟩
      have hone : ∀ m w, i ≤ m → m < i + 1 → vs[m]? = some w →
          checkIsTriggered ops w.Value this.Operator this.RightValue = true := by
        intro m w h1 h2 hw
        have : m = i := by omega
        subst this
        rw [hv] at hw
        cases hw
        exact hc
      rcases hres with ⟨hn, ht⟩ | ⟨_, hiff⟩
      · subst hn
        subst ht
        exact ⟨fun _ => hone, fun _ => rfl⟩
      · constructor
        · intro ht m w h1 h2 hw
          by_cases hmi : m < i + 1
          · exact hone m w h1 hmi hw
          · exact hiff.mp ht m w (by omega) (by omega) hw
        · intro hall
          exact hiff.mpr (fun m w h1 h2 hw => hall m w (by omega) (by omega) hw)
    · have hc2 : checkIsTriggered ops v.Value this.Operator this.RightValue = false := by
        simpa using hc
      refine ⟨false, by simp [AllFunction.loop, hv, hc2], Or.inr ⟨by omega, ?_⟩⟩
      constructor
      · intro h
        cases h
      · intro hall
        have := hall i v (le_refl _) (by omega) hv
        rw [hc2] at this
        cases this

theorem maxLoop_mem {F : Type} (ops : Float64Ops F) (vs : List (HistoryData F))
    (n i : Nat) (max : F) (hlen : i + n ≤ vs.length) :
    ∃ m1, MaxFunction.loop ops vs n i max = some m1 ∧
      (m1 = max ∨ ∃ j v, i ≤ j ∧ j < i + n ∧ vs[j]? = some v ∧ m1 = v.Value) := by
  induction n generalizing i max with
  | zero => exact ⟨max, rfl, Or.inl rfl⟩
  | succ n ih =>
    obtain ⟨v, hv⟩ := getElem?_some_of_lt vs i (by omega)
    obtain ⟨m1, hrun, hres⟩ := ih (i + 1) (if ops.lt max v.Value then v.Value else max) (by omega)
    refine ⟨m1, by simp [MaxFunction.loop, hv, hrun], ?_⟩
    rcases hres with h | ⟨j, w, h1, h2, h3, h4⟩
    · by_cases hlt : ops.lt max v.Value = true
      · exact Or.inr ⟨i, v, le_refl _, by omega, hv, by simpa [hlt] using h⟩
      · exact Or.inl (by simpa [hlt] using h)
    · exact Or.inr ⟨j, w, by omega, by omega, h3, h4⟩

theorem maxLoop_ge {F : Type} (ops : Float64Ops F) (vs : List (HistoryData F))
    (xs : List F) (hord : Ordered ops xs) (hxs : ∀ (j : Nat) (v : HistoryData F), vs[j]? = some v → v.Value ∈ xs)
    (n i : Nat) (max : F) (hmax : max ∈ xs) (hlen : i + n ≤ vs.length) :
    ∃ m1, MaxFunction.loop ops vs n i max = some m1 ∧ m1 ∈ xs ∧ ops.le max m1 = true ∧
      ∀ j v, i ≤ j → j < i + n → vs[j]? = some v → ops.le v.Value m1 = true := by
  obtain ⟨hrefl, hltle, htot, htrans⟩ := hord
  induction n generalizing i max with
  | zero =>
    refine ⟨max, rfl, hmax, hrefl max hmax, ?_⟩
    intro j v h1 h2
    omega
  | succ n ih =>
    obtain ⟨v, hv⟩ := getElem?_some_of_lt vs i (by omega)
    have hvx : v.Value ∈ xs := hxs i v hv
    by_cases hlt : ops.lt max v.Value = true
    · obtain ⟨m1, hrun, hm1, hle, hall⟩ := ih (i + 1) v.Value hvx (by omega)
      refine ⟨m1, by simp [MaxFunction.loop, hv, hlt, hrun], hm1,
        htrans max hmax v.Value hvx m1 hm1 (hltle max hmax v.Value hvx hlt) hle, ?_⟩
      intro j w h1 h2 hw
      by_cases hji : j = i
      · subst hji
        rw [hv] at hw
        cases hw
        exact hle
      · exact hall j w (by omega) (by omega) hw
    · have hlt2 : ops.lt max v.Value = false := by simpa using hlt
      obtain ⟨m1, hrun, hm1, hle, hall⟩ := ih (i + 1) max hmax (by omega)
      refine ⟨m1, by simp [MaxFunction.loop, hv, hlt2, hrun], hm1, hle, ?_⟩
      intro j w h1 h2 hw
      by_cases hji : j = i
      · subst hji
        rw [hv] at hw
        cases hw
        exact htrans _ hvx max hmax m1 hm1 (htot max hmax _ hvx hlt2) hle
      · exact hall j w (by omega) (by omega) hw

theorem minLoop_mem {F : Type} (ops : Float64Ops F) (vs : List (HistoryData F))
    (n i : Nat) (min : F) (hlen : i + n ≤ vs.length) :
    ∃ m1, MinFunction.loop ops vs n i min = some m1 ∧
      (m1 = min ∨ ∃ j v, i ≤ j ∧ j < i + n ∧ vs[j]? = some v ∧ m1 = v.Value) := by
  induction n generalizing i min with
  | zero => exact ⟨min, rfl, Or.inl rfl⟩
  | succ n ih =>
    obtain ⟨v, hv⟩ := getElem?_some_of_lt vs i (by omega)
    obtain ⟨m1, hrun, hres⟩ := ih (i + 1) (if ops.lt v.Value min then v.Value else min) (by omega)
    refine ⟨m1, by simp [MinFunction.loop, hv, hrun], ?_⟩
    rcases hres with h | ⟨j, w, h1, h2, h3, h4⟩
    · by_cases hlt : ops.lt v.Value min = true
      · exact Or.inr ⟨i, v, le_refl _, by omega, hv, by simpa [hlt] using h⟩
      · exact Or.inl (by simpa [hlt] using h)
    · exact Or.inr ⟨j, w, by omega, by omega, h3, h4⟩

theorem minLoop_le {F : Type} (ops : Float64Ops F) (vs : List (HistoryData F))
    (xs : List F) (hord : Ordered ops xs) (hxs : ∀ (j : Nat) (v : HistoryData F), vs[j]? = some v → v.Value ∈ xs)
    (n i : Nat) (min : F) (hmin : min ∈ xs) (hlen : i + n ≤ vs.length) :
    ∃ m1, MinFunction.loop ops vs n i min = some m1 ∧ m1 ∈ xs ∧ ops.le m1 min = true ∧
      ∀ j v, i ≤ j → j < i + n → vs[j]? = some v → ops.le m1 v.Value = true := by
  obtain ⟨hrefl, hltle, htot, htrans⟩ := hord
  induction n generalizing i min with
  | zero =>
    refine ⟨min, rfl, hmin, hrefl min hmin, ?_⟩
    intro j v h1 h2
    omega
  | succ n ih =>
    obtain ⟨v, hv⟩ := getElem?_some_of_lt vs i (by omega)
    have hvx : v.Value ∈ xs := hxs i v hv
    by_cases hlt : ops.lt v.Value min = true
    · obtain ⟨m1, hrun, hm1, hle, hall⟩ := ih (i + 1) v.Value hvx (by omega)
      refine ⟨m1, by simp [MinFunction.loop, hv, hlt, hrun], hm1,
        htrans m1 hm1 v.Value hvx min hmin hle (hltle v.Value hvx min hmin hlt), ?_⟩
      intro j w h1 h2 hw
      by_cases hji : j = i
      · subst hji
        rw [hv] at hw
        cases hw
        exact hle
      · exact hall j w (by omega) (by omega) hw
    · have hlt2 : ops.lt v.Value min = false := by simpa using hlt
      obtain ⟨m1, hrun, hm1, hle, hall⟩ := ih (i + 1) min hmin (by omega)
      refine ⟨m1, by simp [MinFunction.loop, hv, hlt2, hrun], hm1, hle, ?_⟩
      intro j w h1 h2 hw
      by_cases hji : j = i
      · subst hji
        rw [hv] at hw
        cases hw
        exact htrans m1 hm1 min hmin _ hvx hle (htot _ hvx min hmin hlt2)
      · exact hall j w (by omega) (by omega) hw

/-! ## The claims on the event state machine -/

/-- C1 (new incident). For every event, history, `now` and `maxStep ≠ 0`: when
`sendEventIfNeed` is called with `isTriggered = true` and the index has no entry for
`event.Id` or one whose status starts with `O`, exactly one event is sent, it is the event
with status `PROBLEM` and step 1, and afterwards it is the entry of `event.Id`. -/
theorem C1_new_incident {F : Type} (MinInterval : Int) (st : LastEvents F)
    (historyData : List (HistoryData F)) (now : Int) (event : Event F) (maxStep : Int)
    (hmax : maxStep ≠ 0)
    (hlast : ∀ last, st.Get event.Id = some last → last.Status.data.head? = some 'O') :
    sendEventIfNeed MinInterval st historyData true now event maxStep =
        some (st.Set event.Id { event with Status := "PROBLEM", CurrentStep := 1 },
          [{ event with Status := "PROBLEM", CurrentStep := 1 }]) ∧
      (st.Set event.Id { event with Status := "PROBLEM", CurrentStep := 1 }).Get event.Id =
        some { event with Status := "PROBLEM", CurrentStep := 1 } := by
  refine ⟨?_, by simp [LastEvents.Set, LastEvents.Get]⟩
  unfold sendEventIfNeed
  simp only [if_true]
  cases hget : st.Get event.Id with
  | none => simp [hmax, sendEvent]
  | some last =>
    have h := hlast last hget
    cases hd : last.Status.data with
    | nil => simp [hd] at h
    | cons c rest =>
      simp [hd] at h
      simp [hd, h, hmax, sendEvent]

/-- C1, seed scenario 1: `max(#3) > 5` with `maxStep = 3` fires on the values 1, 4, 6 and, the
index being empty, the one event sent is the `PROBLEM` of step 1 with left value 6. -/
theorem C1_new_incident_witness :
    (3 : Int) ≠ 0 ∧
      (∀ last, (LastEvents.empty : LastEvents ExactFloat).Get sampleEvent.Id = some last →
        last.Status.data.head? = some 'O') ∧
      (sendEventIfNeed 300 LastEvents.empty sampleHistory true 3 sampleEvent 3 =
          some (LastEvents.empty.Set sampleEvent.Id
              { sampleEvent with Status := "PROBLEM", CurrentStep := 1 },
            [{ sampleEvent with Status := "PROBLEM", CurrentStep := 1 }]) ∧
        (LastEvents.empty.Set sampleEvent.Id
            { sampleEvent with Status := "PROBLEM", CurrentStep := 1 }).Get sampleEvent.Id =
          some { sampleEvent with Status := "PROBLEM", CurrentStep := 1 }) :=
  ⟨by decide, fun _ h => (by cases h),
    C1_new_incident 300 LastEvents.empty sampleHistory 3 sampleEvent 3 (by decide)
      (fun _ h => (by cases h))⟩

/-- C2 (escalation). For every non-empty history, whose last element `oldest` is the oldest
entry used: when `sendEventIfNeed` is called with `isTriggered = true` and the last event of
`event.Id` is a `PROBLEM`, then the event is sent, with status `PROBLEM` and step
`last.CurrentStep + 1`, if `last.CurrentStep < maxStep`, the oldest timestamp is greater than
`last.EventTime` and `now - last.EventTime ≥ MinInterval`; in every other case nothing is sent
and the index is unchanged. The difference `now - last.EventTime` is the `int64` subtraction
of the code; `maxStep` and the stored step are values of the type `int`. -/
theorem C2_escalation {F : Type} (MinInterval : Int) (st : LastEvents F)
    (historyData : List (HistoryData F)) (now : Int) (event : Event F) (maxStep : Int)
    (last : Event F) (oldest : HistoryData F)
    (hlast : st.Get event.Id = some last) (hstatus : last.Status = "PROBLEM")
    (hhist : historyData.getLast? = some oldest)
    (hstep : isInt64 last.CurrentStep) (hmax : isInt64 maxStep) :
    ((last.CurrentStep < maxStep ∧ oldest.Timestamp > last.EventTime ∧
          wrap64 (now - last.EventTime) ≥ MinInterval) →
        sendEventIfNeed MinInterval st historyData true now event maxStep =
          some (st.Set event.Id
              { event with Status := "PROBLEM", CurrentStep := last.CurrentStep + 1 },
            [{ event with Status := "PROBLEM", CurrentStep := last.CurrentStep + 1 }])) ∧
      (¬ (last.CurrentStep < maxStep ∧ oldest.Timestamp > last.EventTime ∧
          wrap64 (now - last.EventTime) ≥ MinInterval) →
        sendEventIfNeed MinInterval st historyData true now event maxStep = some (st, [])) := by
  have hw : last.CurrentStep < maxStep → wrap64 (last.CurrentStep + 1) = last.CurrentStep + 1 := by
    intro h
    apply wrap64_of_isInt64
    unfold isInt64 at *
    omega
  constructor
  · rintro ⟨h1, h2, h3⟩
    unfold sendEventIfNeed
    simp only [if_true, hlast, hstatus, status_problem_data]
    simp [sendEvent, hhist, hw h1, not_le.mpr h1, not_le.mpr h2, not_lt.mpr h3]
  · intro h
    unfold sendEventIfNeed
    simp only [if_true, hlast, hstatus, status_problem_data]
    simp only [hhist]
    by_cases h1 : last.CurrentStep < maxStep
    · by_cases h2 : oldest.Timestamp > last.EventTime
      · have h3 : wrap64 (now - last.EventTime) < MinInterval := by
          by_contra h3
          exact h ⟨h1, h2, not_lt.mp h3⟩
        simp [not_le.mpr h1, not_le.mpr h2, h3]
      · simp [not_le.mpr h1, not_lt.mp h2]
    · simp [not_lt.mp h1]

/-- C2 at an evaluation 397 seconds after the first alert, on a history that is entirely newer
than it: the second `PROBLEM` is sent with step 2. -/
theorem C2_escalation_witness :
    problemIndex.Get laterEvent.Id =
        some { sampleEvent with Status := "PROBLEM", CurrentStep := 1 } ∧
      laterHistory.getLast? = some ⟨280, .fin 7⟩ ∧ isInt64 1 ∧ isInt64 3 ∧
      sendEventIfNeed 300 problemIndex laterHistory true 400 laterEvent 3 =
        some (problemIndex.Set laterEvent.Id
            { laterEvent with Status := "PROBLEM", CurrentStep := 1 + 1 },
          [{ laterEvent with Status := "PROBLEM", CurrentStep := 1 + 1 }]) :=
  ⟨rfl, rfl, by decide, by decide,
    (C2_escalation 300 problemIndex laterHistory 400 laterEvent 3
      { sampleEvent with Status := "PROBLEM", CurrentStep := 1 } ⟨280, .fin 7⟩ rfl rfl rfl
      (by decide) (by decide)).1 ⟨by decide, by decide, by decide⟩⟩

/-- C3 (recovery). For every index in which the last event of `event.Id` is a `PROBLEM`, a
call with `isTriggered = false` sends exactly one event, with status `OK` and step 1, and
records it as the last event; after it, every sequence of calls with `isTriggered = false` for
the same id sends nothing and leaves the index unchanged. -/
theorem C3_recovery {F : Type} (MinInterval : Int) (st : LastEvents F)
    (historyData : List (HistoryData F)) (now : Int) (event : Event F) (maxStep : Int)
    (last : Event F) (hlast : st.Get event.Id = some last) (hstatus : last.Status = "PROBLEM") :
    sendEventIfNeed MinInterval st historyData false now event maxStep =
        some (st.Set event.Id { event with Status := "OK", CurrentStep := 1 },
          [{ event with Status := "OK", CurrentStep := 1 }]) ∧
      (st.Set event.Id { event with Status := "OK", CurrentStep := 1 }).Get event.Id =
        some { event with Status := "OK", CurrentStep := 1 } ∧
      ∀ calls : List (Call F), (∀ c ∈ calls, c.event.Id = event.Id ∧ c.isTriggered = false) →
        runCalls MinInterval (st.Set event.Id { event with Status := "OK", CurrentStep := 1 }) calls
          = (st.Set event.Id { event with Status := "OK", CurrentStep := 1 }, []) := by
  have hget : (st.Set event.Id { event with Status := "OK", CurrentStep := 1 }).Get event.Id =
        some { event with Status := "OK", CurrentStep := 1 } := by
    simp [LastEvents.Set, LastEvents.Get]
  refine ⟨?_, hget, ?_⟩
  · exact sendEventIfNeed_recovery_first MinInterval st historyData now event maxStep last hlast
      (by rw [hstatus]; rfl)
  · intro calls hcalls
    exact runCalls_quiet MinInterval event.Id _ _ hget (by rfl) calls hcalls

/-- C3, seed scenario 3: after the `PROBLEM` of scenario 1 a not-triggered evaluation sends one
`OK` of step 1, and further not-triggered evaluations send nothing. -/
theorem C3_recovery_witness :
    problemIndex.Get laterEvent.Id =
        some { sampleEvent with Status := "PROBLEM", CurrentStep := 1 } ∧
      ({ sampleEvent with Status := "PROBLEM", CurrentStep := 1 } : Event ExactFloat).Status =
        "PROBLEM" ∧
      (sendEventIfNeed 300 problemIndex laterHistory false 400 laterEvent 3 =
          some (problemIndex.Set laterEvent.Id { laterEvent with Status := "OK", CurrentStep := 1 },
            [{ laterEvent with Status := "OK", CurrentStep := 1 }]) ∧
        (problemIndex.Set laterEvent.Id
            { laterEvent with Status := "OK", CurrentStep := 1 }).Get laterEvent.Id =
          some { laterEvent with Status := "OK", CurrentStep := 1 } ∧
        ∀ calls : List (Call ExactFloat),
          (∀ c ∈ calls, c.event.Id = laterEvent.Id ∧ c.isTriggered = false) →
          runCalls 300
              (problemIndex.Set laterEvent.Id { laterEvent with Status := "OK", CurrentStep := 1 })
              calls =
            (problemIndex.Set laterEvent.Id { laterEvent with Status := "OK", CurrentStep := 1 },
              [])) :=
  ⟨rfl, rfl,
    C3_recovery 300 problemIndex laterHistory 400 laterEvent 3
      { sampleEvent with Status := "PROBLEM", CurrentStep := 1 } rfl rfl⟩

/-- C4 (escalation cap). For every `N ≥ 0` (a value of the type `int`) and every sequence of
`sendEventIfNeed` calls for one event id with `maxStep = N`, started on the empty index: every
stretch of consecutive emissions that are all `PROBLEM` (the emissions between two `OK`
emissions) has at most `N` elements, and every `PROBLEM` sent has a step of at most `N`. -/
theorem C4_escalation_cap {F : Type} (MinInterval N : Int) (id : String)
    (calls : List (Call F)) (hN0 : 0 ≤ N) (hN : isInt64 N)
    (hid : ∀ c ∈ calls, c.event.Id = id) (hmax : ∀ c ∈ calls, c.maxStep = N) :
    (∀ pre seg post, (runCalls MinInterval LastEvents.empty calls).2 = pre ++ seg ++ post →
        (∀ x ∈ seg, x.2.Status = "PROBLEM") → (seg.length : Int) ≤ N) ∧
      (∀ x ∈ (runCalls MinInterval LastEvents.empty calls).2,
        x.2.Status = "PROBLEM" → x.2.CurrentStep ≤ N) := by
  have htrace := runCalls_trace MinInterval id calls LastEvents.empty hid
  have hstart : StepBounded N ((LastEvents.empty : LastEvents F).Get id) := by
    intro last hl
    cases hl
  constructor
  · intro pre seg post htr hseg
    rw [htr, List.append_assoc] at htrace
    obtain ⟨p, hp, htp⟩ :=
      TraceFrom_skip MinInterval N id calls hN0 hN hmax pre (seg ++ post) _ hstart htrace
    obtain ⟨s, hs, hs0, _⟩ := ActiveStep_exists N p hp hN0
    have := TraceFrom_segment MinInterval N id calls hN0 hN hmax seg post p s hp hs htp hseg
    omega
  · intro x hx hxP
    rcases TraceFrom_bounded MinInterval N id calls hN0 hN hmax _ _ hstart htrace x hx x.2 rfl
      with hok | ⟨_, _, h⟩
    · exact (status_ok_ne_problem _ hok hxP).elim
    · exact h

/-- C4 on four triggered evaluations, 400 seconds apart, of a rule with `maxStep = 2`: two
`PROBLEM` events are sent, of steps 1 and 2. -/
theorem C4_escalation_cap_witness :
    (0 : Int) ≤ 2 ∧ isInt64 2 ∧ (∀ c ∈ cappedCalls, c.event.Id = "s_1_k") ∧
      (∀ c ∈ cappedCalls, c.maxStep = 2) ∧
      (runCalls 300 LastEvents.empty cappedCalls).2.map
          (fun x => (x.1, x.2.Status, x.2.CurrentStep)) =
        [(3, "PROBLEM", 1), (400, "PROBLEM", 2)] ∧
      ((∀ pre seg post, (runCalls 300 LastEvents.empty cappedCalls).2 = pre ++ seg ++ post →
          (∀ x ∈ seg, x.2.Status = "PROBLEM") → (seg.length : Int) ≤ 2) ∧
        (∀ x ∈ (runCalls 300 LastEvents.empty cappedCalls).2,
          x.2.Status = "PROBLEM" → x.2.CurrentStep ≤ 2)) :=
  ⟨by decide, by decide, by decide, by decide, by decide,
    C4_escalation_cap 300 2 "s_1_k" cappedCalls (by decide) (by decide) (by decide) (by decide)⟩

/-- C5 at the failing input: with `MinInterval = 300`, two evaluations of `max(#1) > 5` for one
event id, one second apart (`now` 1000 and 1001), on samples stamped 700 and 760, both send a
`PROBLEM`, steps 1 and 2 of one incident. The guard compares the `now` of the second
evaluation with the `EventTime` 700 of the first event, a sample timestamp, and 301 passes.
The two alerts are 1 second apart by `now` and 60 seconds apart by sample time, although the
comment on the guard asks for at least `MinInterval` seconds between two alerts. -/
theorem C5_spacing_violated :
    (runCalls 300 LastEvents.empty lateCalls).2.map
        (fun x => (x.1, x.2.Status, x.2.CurrentStep, x.2.EventTime)) =
      [(1000, "PROBLEM", 1, 700), (1001, "PROBLEM", 2, 760)] ∧
      ¬ ((300 : Int) ≤ 1001 - 1000) ∧ ¬ ((300 : Int) ≤ 760 - 700) ∧
      (300 : Int) ≤ wrap64 (1001 - 700) := by
  decide

/-- What the guard `now - lastEvent.EventTime < MinInterval` does ensure, for every sequence of
evaluations for one event id, from any index: for any two consecutive emissions `a`, `b` that
are both `PROBLEM`, the `now` of the evaluation that sent `b` is at least `MinInterval` after
the `EventTime` of `a` (in `int64` arithmetic). It bounds neither the distance of the two
`now` values nor that of the two event times. -/
theorem runCalls_spacing_from_event_time {F : Type} (MinInterval : Int) (id : String) (st : LastEvents F)
    (calls : List (Call F)) (hid : ∀ c ∈ calls, c.event.Id = id)
    (pre post : List (Int × Event F)) (a b : Int × Event F)
    (htr : (runCalls MinInterval st calls).2 = pre ++ a :: b :: post)
    (ha : a.2.Status = "PROBLEM") (hb : b.2.Status = "PROBLEM") :
    MinInterval ≤ wrap64 (b.1 - a.2.EventTime) := by
  have htrace := runCalls_trace MinInterval id calls st hid
  rw [htr] at htrace
  obtain ⟨_, h | ⟨_, _, _, ho⟩ | ⟨_, last, hl, _, _, _, _, _, h, _⟩⟩ :=
    TraceFrom_append pre a b post _ htrace
  · exact (status_ok_ne_problem _ h.1 hb).elim
  · have := ho a.2 rfl
    rw [ha] at this
    exact absurd this (by decide)
  · cases hl
    exact h

/-- The two late evaluations: the second `PROBLEM` is sent at `now = 1001`, which is 301
seconds after the `EventTime` 700 of the first. -/
theorem runCalls_spacing_from_event_time_example :
    (∀ c ∈ lateCalls, c.event.Id = "s_1_k") ∧
      (runCalls 300 LastEvents.empty lateCalls).2 =
        [] ++ (1000, { sampleEvent with Status := "PROBLEM", CurrentStep := 1, EventTime := 700 })
          :: (1001, { sampleEvent with Status := "PROBLEM", CurrentStep := 2, EventTime := 760,
                                       LeftValue := .fin 7 }) :: [] ∧
      (300 : Int) ≤ wrap64 (1001 - 700) :=
  ⟨by decide, by decide,
    runCalls_spacing_from_event_time 300 "s_1_k" LastEvents.empty lateCalls (by decide) [] []
      (1000, { sampleEvent with Status := "PROBLEM", CurrentStep := 1, EventTime := 700 })
      (1001, { sampleEvent with Status := "PROBLEM", CurrentStep := 2, EventTime := 760,
                                LeftValue := .fin 7 })
      (by decide) rfl rfl⟩

/-- C6, as stated, fails: with the `PROBLEM` of seed scenario 1 as last event, a call with
`isTriggered = false` and `maxStep = 0` sends the `OK` recovery event and changes the index. -/
theorem C6_muted_rule_counterexample :
    (sendEventIfNeed 300 problemIndex laterHistory false 400 laterEvent 0).map Prod.snd =
        some [{ laterEvent with Status := "OK", CurrentStep := 1 }] ∧
      (sendEventIfNeed 300 problemIndex laterHistory false 400 laterEvent 0).map
          (fun r => r.1.Get "s_1_k") =
        some (some { laterEvent with Status := "OK", CurrentStep := 1 }) ∧
      problemIndex.Get "s_1_k" = some { sampleEvent with Status := "PROBLEM", CurrentStep := 1 } := by
  decide

/-- C6 (amended). For every index whose entry for `event.Id`, if any, has status `PROBLEM` or
`OK` and a step `≥ 0`, every history and every `now`, a call with `maxStep = 0`: with
`isTriggered = true` sends nothing and leaves the index unchanged; with `isTriggered = false`
sends nothing and leaves the index unchanged when there is no entry or the entry is an `OK`,
and sends the `OK` recovery event of step 1 and records it when the entry is a `PROBLEM`. -/
theorem C6_muted_rule {F : Type} (MinInterval : Int) (st : LastEvents F)
    (historyData : List (HistoryData F)) (now : Int) (event : Event F)
    (hwf : ∀ last, st.Get event.Id = some last →
      (last.Status = "PROBLEM" ∨ last.Status = "OK") ∧ 0 ≤ last.CurrentStep) :
    sendEventIfNeed MinInterval st historyData true now event 0 = some (st, []) ∧
      ((∀ last, st.Get event.Id = some last → last.Status = "OK") →
        sendEventIfNeed MinInterval st historyData false now event 0 = some (st, [])) ∧
      (∀ last, st.Get event.Id = some last → last.Status = "PROBLEM" →
        sendEventIfNeed MinInterval st historyData false now event 0 =
          some (st.Set event.Id { event with Status := "OK", CurrentStep := 1 },
            [{ event with Status := "OK", CurrentStep := 1 }])) := by
  refine ⟨?_, ?_, ?_⟩
  · unfold sendEventIfNeed
    cases hget : st.Get event.Id with
    | none => simp
    | some last =>
      obtain ⟨hs, hstep⟩ := hwf last hget
      rcases hs with hs | hs
      · simp [hs, status_problem_data, hstep]
      · simp [hs, status_ok_data]
  · intro hok
    cases hget : st.Get event.Id with
    | none => simp [sendEventIfNeed, hget]
    | some last =>
      exact sendEventIfNeed_not_triggered_ok MinInterval st historyData now event 0 last hget
        (by rw [hok last hget]; rfl)
  · intro last hget hs
    exact sendEventIfNeed_recovery_first MinInterval st historyData now event 0 last hget
      (by rw [hs]; rfl)

/-- C6 (amended) on the index of seed scenario 1: a triggered call with `maxStep = 0` sends
nothing. -/
theorem C6_muted_rule_witness :
    (∀ last, problemIndex.Get laterEvent.Id = some last →
        (last.Status = "PROBLEM" ∨ last.Status = "OK") ∧ 0 ≤ last.CurrentStep) ∧
      sendEventIfNeed 300 problemIndex laterHistory true 400 laterEvent 0 =
        some (problemIndex, []) :=
  ⟨fun _ h => (by cases h; decide),
    (C6_muted_rule 300 problemIndex laterHistory 400 laterEvent
      (fun _ h => (by cases h; decide))).1⟩

/-! ## The claims on the windowed functions -/

/-- C7 (DIFF). For every limit `k ≥ 1` and every snapshot `v0 .. vk` of `k + 1` entries
(newest first; `k + 1` is a value of the type `int`), `DiffFunction.Compute` returns, is
triggered if and only if some `i` in `[1, k]` satisfies `cmp(v0 - vi, op, rhs)`; when triggered
its left value is `v0 - vi` for the smallest such `i`, and when not triggered it is `v0 - vk`. -/
theorem C7_diff {F : Type} (ops : Float64Ops F) (this : DiffFunction F)
    (L : SafeLinkedList F) (vs : List (HistoryData F)) (v0 : HistoryData F) (k : Nat)
    (hk : 1 ≤ k) (hlim : this.Limit = k) (hfit : isInt64 (k + 1))
    (hsnap : L.HistoryData (this.Limit + 1) = (vs, true)) (hlen : vs.length = k + 1)
    (h0 : vs[0]? = some v0) :
    ∃ r, DiffFunction.Compute ops this L = some r ∧ r.vs = vs ∧ r.isEnough = true ∧
      (r.isTriggered = true ↔ ∃ i v, 1 ≤ i ∧ i ≤ k ∧ vs[i]? = some v ∧
        checkIsTriggered ops (ops.sub v0.Value v.Value) this.Operator this.RightValue = true) ∧
      (r.isTriggered = true → ∃ i v, 1 ≤ i ∧ i ≤ k ∧ vs[i]? = some v ∧
        checkIsTriggered ops (ops.sub v0.Value v.Value) this.Operator this.RightValue = true ∧
        (∀ m w, 1 ≤ m → m < i → vs[m]? = some w →
          checkIsTriggered ops (ops.sub v0.Value w.Value) this.Operator this.RightValue = false) ∧
        r.leftValue = ops.sub v0.Value v.Value) ∧
      (r.isTriggered = false → ∃ v, vs[k]? = some v ∧ r.leftValue = ops.sub v0.Value v.Value) := by
  have hw : wrap64 (this.Limit + 1) = this.Limit + 1 := by
    apply wrap64_of_isInt64
    rw [hlim]
    exact hfit
  have hn : this.Limit.toNat = k := by
    rw [hlim]
    simp
  obtain ⟨lv1, t1, hrun, hres⟩ :=
    diffLoop_spec ops this vs v0.Value k 1 ops.zero false (by omega)
  refine ⟨⟨vs, lv1, t1, true⟩, ?_, rfl, rfl, ?_⟩
  · simp [DiffFunction.Compute, hw, hsnap, h0, hn, hrun]
  · dsimp only
    rcases hres with ⟨ht, j, v, h1, h2, h3, h4, h5, h6⟩ | ⟨hall, hlast⟩
    · subst h4
      refine ⟨?_, ?_, ?_⟩
      · exact ⟨fun _ => ⟨j, v, h1, by omega, h3, h5⟩, fun _ => ht⟩
      · intro _
        exact ⟨j, v, h1, by omega, h3, h5, h6, rfl⟩
      · intro hf
        rw [ht] at hf
        cases hf
    · rcases hlast with ⟨hk0, _, _⟩ | ⟨_, ht, v, hv, hlv⟩
      · omega
      · have hnot : ¬ ∃ i v, 1 ≤ i ∧ i ≤ k ∧ vs[i]? = some v ∧
            checkIsTriggered ops (ops.sub v0.Value v.Value) this.Operator this.RightValue
              = true := by
          rintro ⟨i, v, h1, h2, h3, h4⟩
          have := hall i v h1 (by omega) h3
          rw [this] at h4
          cases h4
        refine ⟨?_, ?_, ?_⟩
        · exact ⟨fun h => (by rw [ht] at h; cases h), fun h => (hnot h).elim⟩
        · intro h
          rw [ht] at h
          cases h
        · intro _
          refine ⟨v, ?_, hlv⟩
          have : 1 + k - 1 = k := by omega
          rw [this] at hv
          exact hv

/-- C7, seed scenario 4: `diff(#2) > 3` on the window 10, 8, 6 is triggered with left value
4. -/
theorem C7_diff_witness :
    1 ≤ 2 ∧ (⟨2, ">", .fin 3⟩ : DiffFunction ExactFloat).Limit = (2 : Nat) ∧
      isInt64 ((2 : Nat) + 1) ∧
      (windowOf diffHistory).HistoryData ((⟨2, ">", .fin 3⟩ : DiffFunction ExactFloat).Limit + 1)
        = (diffHistory, true) ∧
      diffHistory.length = 2 + 1 ∧ diffHistory[0]? = some ⟨3, .fin 10⟩ ∧
      DiffFunction.Compute exactOps ⟨2, ">", .fin 3⟩ (windowOf diffHistory) =
        some ⟨diffHistory, .fin 4, true, true⟩ ∧
      ∃ r, DiffFunction.Compute exactOps ⟨2, ">", .fin 3⟩ (windowOf diffHistory) = some r ∧
        r.vs = diffHistory ∧ r.isEnough = true ∧
        (r.isTriggered = true ↔ ∃ i v, 1 ≤ i ∧ i ≤ 2 ∧ diffHistory[i]? = some v ∧
          checkIsTriggered exactOps (exactOps.sub (.fin 10) v.Value) ">" (.fin 3) = true) ∧
        (r.isTriggered = true → ∃ i v, 1 ≤ i ∧ i ≤ 2 ∧ diffHistory[i]? = some v ∧
          checkIsTriggered exactOps (exactOps.sub (.fin 10) v.Value) ">" (.fin 3) = true ∧
          (∀ m w, 1 ≤ m → m < i → diffHistory[m]? = some w →
            checkIsTriggered exactOps (exactOps.sub (.fin 10) w.Value) ">" (.fin 3) = false) ∧
          r.leftValue = exactOps.sub (.fin 10) v.Value) ∧
        (r.isTriggered = false →
          ∃ v, diffHistory[2]? = some v ∧ r.leftValue = exactOps.sub (.fin 10) v.Value) :=
  ⟨by decide, rfl, by decide, by decide, rfl, rfl, by with_unfolding_all decide,
    C7_diff exactOps ⟨2, ">", .fin 3⟩ (windowOf diffHistory) diffHistory ⟨3, .fin 10⟩ 2
      (by decide) rfl (by decide) (by decide) rfl rfl⟩

/-- C8 (PDIFF). For every limit `k` (so for every `k ≥ 1`) and every snapshot `v0 .. vk` of `k + 1` entries,
`PDiffFunction.Compute` returns and is triggered if and only if some `i` in `[1, k]` with
`vi != 0` satisfies `cmp((v0 - vi) / vi * 100, op, rhs)`; when triggered its left value is that
percentage at the smallest such `i`; when not triggered it is the percentage at the largest `i`
with `vi != 0`, or 0 when every `vi` is 0. Entries with `vi == 0` never divide: the result does
not depend on what a division by such a value gives. -/
theorem C8_pdiff {F : Type} (ops : Float64Ops F) (this : PDiffFunction F)
    (L : SafeLinkedList F) (vs : List (HistoryData F)) (v0 : HistoryData F) (k : Nat)
    (hlim : this.Limit = k) (hfit : isInt64 (k + 1))
    (hsnap : L.HistoryData (this.Limit + 1) = (vs, true)) (hlen : vs.length = k + 1)
    (h0 : vs[0]? = some v0) :
    ∃ r, PDiffFunction.Compute ops this L = some r ∧ r.vs = vs ∧ r.isEnough = true ∧
      (r.isTriggered = true ↔ ∃ i v, 1 ≤ i ∧ i ≤ k ∧ vs[i]? = some v ∧
        ops.eq v.Value ops.zero = false ∧
        checkIsTriggered ops (PDiffFunction.percent ops v0.Value v.Value) this.Operator
          this.RightValue = true) ∧
      (r.isTriggered = true → ∃ i v, 1 ≤ i ∧ i ≤ k ∧ vs[i]? = some v ∧
        ops.eq v.Value ops.zero = false ∧
        checkIsTriggered ops (PDiffFunction.percent ops v0.Value v.Value) this.Operator
          this.RightValue = true ∧
        (∀ m w, 1 ≤ m → m < i → vs[m]? = some w → ops.eq w.Value ops.zero = false →
          checkIsTriggered ops (PDiffFunction.percent ops v0.Value w.Value) this.Operator
            this.RightValue = false) ∧
        r.leftValue = PDiffFunction.percent ops v0.Value v.Value) ∧
      (r.isTriggered = false →
        (∃ i v, 1 ≤ i ∧ i ≤ k ∧ vs[i]? = some v ∧ ops.eq v.Value ops.zero = false ∧
          (∀ m w, i < m → m ≤ k → vs[m]? = some w → ops.eq w.Value ops.zero = true) ∧
          r.leftValue = PDiffFunction.percent ops v0.Value v.Value) ∨
        ((∀ m w, 1 ≤ m → m ≤ k → vs[m]? = some w → ops.eq w.Value ops.zero = true) ∧
          r.leftValue = ops.zero)) ∧
      (∀ d : F → F → F, (∀ a b, ops.eq b ops.zero = false → d a b = ops.div a b) →
        PDiffFunction.Compute { ops with div := d } this L = PDiffFunction.Compute ops this L) := by
  have hw : wrap64 (this.Limit + 1) = this.Limit + 1 := by
    apply wrap64_of_isInt64
    rw [hlim]
    exact hfit
  have hn : this.Limit.toNat = k := by
    rw [hlim]
    simp
  obtain ⟨lv1, t1, hrun, hres⟩ :=
    pdiffLoop_spec ops this vs v0.Value k 1 ops.zero false (by omega)
  refine ⟨⟨vs, lv1, t1, true⟩, ?_, rfl, rfl, ?_⟩
  · simp [PDiffFunction.Compute, hw, hsnap, h0, hn, hrun]
  · dsimp only
    have hdiv : ∀ d : F → F → F, (∀ a b, ops.eq b ops.zero = false → d a b = ops.div a b) →
        PDiffFunction.Compute { ops with div := d } this L =
          PDiffFunction.Compute ops this L := by
      intro d hd
      have hl := pdiffLoop_div ops this vs v0.Value d hd k 1 ops.zero false
      have hn2 : (this.Limit + 1 - 1).toNat = k := by
        rw [hlim]
        simp
      simp only [PDiffFunction.Compute, hw, hsnap, h0, hn2]
      rw [hl]
    rcases hres with ⟨ht, j, v, h1, h2, h3, h4, h5, h6, h7⟩ | ⟨hall, hlast⟩
    · subst h5
      refine ⟨?_, ?_, ?_, hdiv⟩
      · exact ⟨fun _ => ⟨j, v, h1, by omega, h3, h4, h6⟩, fun _ => ht⟩
      · intro _
        exact ⟨j, v, h1, by omega, h3, h4, h6, h7, rfl⟩
      · intro hf
        rw [ht] at hf
        cases hf
    · have hnot : ¬ ∃ i v, 1 ≤ i ∧ i ≤ k ∧ vs[i]? = some v ∧ ops.eq v.Value ops.zero = false ∧
          checkIsTriggered ops (PDiffFunction.percent ops v0.Value v.Value) this.Operator
            this.RightValue = true := by
        rintro ⟨i, v, h1, h2, h3, h4, h5⟩
        have := hall i v h1 (by omega) h3 h4
        rw [this] at h5
        cases h5
      have ht : t1 = false := by
        rcases hlast with ⟨_, _, h⟩ | ⟨h, _⟩
        · exact h
        · exact h
      refine ⟨?_, ?_, ?_, hdiv⟩
      · exact ⟨fun h => (by rw [ht] at h; cases h), fun h => (hnot h).elim⟩
      · intro h
        rw [ht] at h
        cases h
      · intro _
        rcases hlast with ⟨hzero, hlv, _⟩ | ⟨_, j, v, hj1, hj2, hv, hv0, hlv, hafter⟩
        · exact Or.inr ⟨fun m w hm1 hm2 hw => hzero m w hm1 (by omega) hw, hlv⟩
        · exact Or.inl ⟨j, v, hj1, by omega, hv, hv0,
            fun m w hm1 hm2 hw => hafter m w hm1 (by omega) hw, hlv⟩

/-- C8, seed scenario 5: `pdiff(#2) > 10` on the window 5, 0, 4 skips the zero and is triggered
with left value 25. -/
theorem C8_pdiff_witness :
    (⟨2, ">", .fin 10⟩ : PDiffFunction ExactFloat).Limit = (2 : Nat) ∧
      isInt64 ((2 : Nat) + 1) ∧
      (windowOf pdiffHistory).HistoryData
          ((⟨2, ">", .fin 10⟩ : PDiffFunction ExactFloat).Limit + 1) = (pdiffHistory, true) ∧
      pdiffHistory.length = 2 + 1 ∧ pdiffHistory[0]? = some ⟨3, .fin 5⟩ ∧
      PDiffFunction.Compute exactOps ⟨2, ">", .fin 10⟩ (windowOf pdiffHistory) =
        some ⟨pdiffHistory, .fin 25, true, true⟩ ∧
      ∃ r, PDiffFunction.Compute exactOps ⟨2, ">", .fin 10⟩ (windowOf pdiffHistory) = some r ∧
        r.vs = pdiffHistory ∧ r.isEnough = true ∧
        (r.isTriggered = true ↔ ∃ i v, 1 ≤ i ∧ i ≤ 2 ∧ pdiffHistory[i]? = some v ∧
          exactOps.eq v.Value exactOps.zero = false ∧
          checkIsTriggered exactOps (PDiffFunction.percent exactOps (.fin 5) v.Value) ">"
            (.fin 10) = true) :=
  ⟨rfl, by decide, by decide, rfl, rfl, by with_unfolding_all decide,
    (C8_pdiff exactOps ⟨2, ">", .fin 10⟩ (windowOf pdiffHistory) pdiffHistory ⟨3, .fin 5⟩ 2
      rfl (by decide) (by decide) rfl rfl).imp
      (fun _ h => ⟨h.1, h.2.1, h.2.2.1, h.2.2.2.1⟩)⟩

/-- C9 (ALL). For every limit `k ≥ 1` and every snapshot of `k` entries, `AllFunction.Compute`
returns, is triggered if and only if `cmp(vi, op, rhs)` holds for every `i` in `[0, k)`, and
its left value is the newest value `v0` whether or not it is triggered. -/
theorem C9_all {F : Type} (ops : Float64Ops F) (this : AllFunction F)
    (L : SafeLinkedList F) (vs : List (HistoryData F)) (v0 : HistoryData F) (k : Nat)
    (hk : 1 ≤ k) (hlim : this.Limit = k)
    (hsnap : L.HistoryData this.Limit = (vs, true)) (hlen : vs.length = k)
    (h0 : vs[0]? = some v0) :
    ∃ r, AllFunction.Compute ops this L = some r ∧ r.vs = vs ∧ r.isEnough = true ∧
      (r.isTriggered = true ↔ ∀ i v, i < k → vs[i]? = some v →
        checkIsTriggered ops v.Value this.Operator this.RightValue = true) ∧
      r.leftValue = v0.Value := by
  have hn : this.Limit.toNat = k := by
    rw [hlim]
    simp
  obtain ⟨t1, hrun, hres⟩ := allLoop_spec ops this vs k 0 true (by omega)
  refine ⟨⟨vs, v0.Value, t1, true⟩, ?_, rfl, rfl, ?_, rfl⟩
  · simp [AllFunction.Compute, hsnap, hn, hrun, h0]
  · dsimp only
    rcases hres with ⟨hk0, _⟩ | ⟨_, hiff⟩
    · omega
    · constructor
      · intro ht i v hi hv
        exact hiff.mp ht i v (Nat.zero_le _) (by omega) hv
      · intro hall
        exact hiff.mpr (fun m w _ hm hw => hall m w (by omega) hw)

/-- C9 on the window 6, 4, 1: `all(#3) > 0` is triggered and `all(#3) > 3` is not, the left
value being 6 in both cases. -/
theorem C9_all_witness :
    1 ≤ 3 ∧ (⟨3, ">", .fin 0⟩ : AllFunction ExactFloat).Limit = (3 : Nat) ∧
      (windowOf sampleHistory).HistoryData (⟨3, ">", .fin 0⟩ : AllFunction ExactFloat).Limit =
        (sampleHistory, true) ∧
      sampleHistory.length = 3 ∧ sampleHistory[0]? = some ⟨3, .fin 6⟩ ∧
      AllFunction.Compute exactOps ⟨3, ">", .fin 0⟩ (windowOf sampleHistory) =
        some ⟨sampleHistory, .fin 6, true, true⟩ ∧
      AllFunction.Compute exactOps ⟨3, ">", .fin 3⟩ (windowOf sampleHistory) =
        some ⟨sampleHistory, .fin 6, false, true⟩ ∧
      ∃ r, AllFunction.Compute exactOps ⟨3, ">", .fin 0⟩ (windowOf sampleHistory) = some r ∧
        r.vs = sampleHistory ∧ r.isEnough = true ∧
        (r.isTriggered = true ↔ ∀ i v, i < 3 → sampleHistory[i]? = some v →
          checkIsTriggered exactOps v.Value ">" (.fin 0) = true) ∧
        r.leftValue = .fin 6 :=
  ⟨by decide, rfl, by decide, rfl, rfl, by decide, by decide,
    C9_all exactOps ⟨3, ">", .fin 0⟩ (windowOf sampleHistory) sampleHistory ⟨3, .fin 6⟩ 3
      (by decide) rfl (by decide) rfl rfl⟩

/-- C10, as stated, fails on a snapshot that holds a NaN: `max(#2)` on the values 1, NaN
returns the left value 1, and `1 >= NaN` is false (as is every comparison with NaN). -/
theorem C10_max_nan_counterexample :
    MaxFunction.Compute exactOps ⟨2, ">", .fin 0⟩ (windowOf nanHistory) =
        some ⟨nanHistory, .fin 1, true, true⟩ ∧
      (windowOf nanHistory).HistoryData 2 = (nanHistory, true) ∧
      (⟨1, ExactFloat.nan⟩ : HistoryData ExactFloat) ∈ nanHistory ∧
      exactOps.le ExactFloat.nan (.fin 1) = false := by
  decide

/-- C10 (amended). For every limit `k ≥ 1` and every snapshot of `k` entries,
`MaxFunction.Compute` (resp. `MinFunction.Compute`) returns the snapshot itself as the used
history, its left value is one of the `k` values, it is triggered exactly when
`cmp(leftValue, op, rhs)` holds, and, when the values are totally ordered by the comparisons
(none is NaN), the left value is `>=` (resp. `<=`) each of the `k` values. -/
theorem C10_max_min {F : Type} (ops : Float64Ops F) (fmax : MaxFunction F)
    (fmin : MinFunction F) (L : SafeLinkedList F) (vs : List (HistoryData F)) (k : Nat)
    (hk : 1 ≤ k) (hmax : fmax.Limit = k) (hmin : fmin.Limit = k)
    (hsnap : L.HistoryData k = (vs, true)) (hlen : vs.length = k) :
    (∃ r, MaxFunction.Compute ops fmax L = some r ∧ r.vs = vs ∧ r.isEnough = true ∧
        (∃ v ∈ vs, r.leftValue = v.Value) ∧
        r.isTriggered = checkIsTriggered ops r.leftValue fmax.Operator fmax.RightValue ∧
        (Ordered ops (vs.map (fun v => v.Value)) →
          ∀ v ∈ vs, ops.le v.Value r.leftValue = true)) ∧
      (∃ r, MinFunction.Compute ops fmin L = some r ∧ r.vs = vs ∧ r.isEnough = true ∧
        (∃ v ∈ vs, r.leftValue = v.Value) ∧
        r.isTriggered = checkIsTriggered ops r.leftValue fmin.Operator fmin.RightValue ∧
        (Ordered ops (vs.map (fun v => v.Value)) →
          ∀ v ∈ vs, ops.le r.leftValue v.Value = true)) := by
  obtain ⟨v0, h0⟩ := getElem?_some_of_lt vs 0 (by omega)
  have hn : ((k : Int) - 1).toNat = k - 1 := by omega
  have hxs : ∀ (j : Nat) (v : HistoryData F), vs[j]? = some v →
      v.Value ∈ vs.map (fun v => v.Value) :=
    fun j v hv => List.mem_map_of_mem _ (List.getElem?_mem hv)
  have hidx : ∀ v ∈ vs, ∃ j, j < k ∧ vs[j]? = some v := by
    intro v hv
    obtain ⟨j, hj⟩ := List.mem_iff_getElem?.mp hv
    refine ⟨j, ?_, hj⟩
    have := (List.getElem?_eq_some.mp hj).1
    omega
  constructor
  · obtain ⟨m1, hrun, hmem⟩ := maxLoop_mem ops vs (k - 1) 1 v0.Value (by omega)
    refine ⟨⟨vs, m1, checkIsTriggered ops m1 fmax.Operator fmax.RightValue, true⟩, ?_, rfl, rfl,
      ?_, rfl, ?_⟩
    · simp [MaxFunction.Compute, hmax, hsnap, h0, hn, hrun]
    · rcases hmem with h | ⟨j, v, _, _, hv, h⟩
      · exact ⟨v0, List.getElem?_mem h0, h⟩
      · exact ⟨v, List.getElem?_mem hv, h⟩
    · intro hord v hv
      obtain ⟨m2, hrun2, _, hle, hall⟩ :=
        maxLoop_ge ops vs _ hord hxs (k - 1) 1 v0.Value (hxs 0 v0 h0) (by omega)
      rw [hrun] at hrun2
      cases hrun2
      obtain ⟨j, hj, hvj⟩ := hidx v hv
      by_cases hj0 : j = 0
      · subst hj0
        rw [h0] at hvj
        cases hvj
        exact hle
      · exact hall j v (by omega) (by omega) hvj
  · obtain ⟨m1, hrun, hmem⟩ := minLoop_mem ops vs (k - 1) 1 v0.Value (by omega)
    refine ⟨⟨vs, m1, checkIsTriggered ops m1 fmin.Operator fmin.RightValue, true⟩, ?_, rfl, rfl,
      ?_, rfl, ?_⟩
    · simp [MinFunction.Compute, hmin, hsnap, h0, hn, hrun]
    · rcases hmem with h | ⟨j, v, _, _, hv, h⟩
      · exact ⟨v0, List.getElem?_mem h0, h⟩
      · exact ⟨v, List.getElem?_mem hv, h⟩
    · intro hord v hv
      obtain ⟨m2, hrun2, _, hle, hall⟩ :=
        minLoop_le ops vs _ hord hxs (k - 1) 1 v0.Value (hxs 0 v0 h0) (by omega)
      rw [hrun] at hrun2
      cases hrun2
      obtain ⟨j, hj, hvj⟩ := hidx v hv
      by_cases hj0 : j = 0
      · subst hj0
        rw [h0] at hvj
        cases hvj
        exact hle
      · exact hall j v (by omega) (by omega) hvj

/-- C10 (amended) on the window 6, 4, 1, whose values are totally ordered: `max(#3) > 5` has
left value 6 and is triggered, `min(#3) > 5` has left value 1 and is not. -/
theorem C10_max_min_witness :
    1 ≤ 3 ∧ (⟨3, ">", .fin 5⟩ : MaxFunction ExactFloat).Limit = (3 : Nat) ∧
      (⟨3, ">", .fin 5⟩ : MinFunction ExactFloat).Limit = (3 : Nat) ∧
      (windowOf sampleHistory).HistoryData (3 : Nat) = (sampleHistory, true) ∧
      sampleHistory.length = 3 ∧
      Ordered exactOps (sampleHistory.map (fun v => v.Value)) ∧
      MaxFunction.Compute exactOps ⟨3, ">", .fin 5⟩ (windowOf sampleHistory) =
        some ⟨sampleHistory, .fin 6, true, true⟩ ∧
      MinFunction.Compute exactOps ⟨3, ">", .fin 5⟩ (windowOf sampleHistory) =
        some ⟨sampleHistory, .fin 1, false, true⟩ ∧
      ((∃ r, MaxFunction.Compute exactOps ⟨3, ">", .fin 5⟩ (windowOf sampleHistory) = some r ∧
          r.vs = sampleHistory ∧ r.isEnough = true ∧
          (∃ v ∈ sampleHistory, r.leftValue = v.Value) ∧
          r.isTriggered = checkIsTriggered exactOps r.leftValue ">" (.fin 5) ∧
          (Ordered exactOps (sampleHistory.map (fun v => v.Value)) →
            ∀ v ∈ sampleHistory, exactOps.le v.Value r.leftValue = true)) ∧
        (∃ r, MinFunction.Compute exactOps ⟨3, ">", .fin 5⟩ (windowOf sampleHistory) = some r ∧
          r.vs = sampleHistory ∧ r.isEnough = true ∧
          (∃ v ∈ sampleHistory, r.leftValue = v.Value) ∧
          r.isTriggered = checkIsTriggered exactOps r.leftValue ">" (.fin 5) ∧
          (Ordered exactOps (sampleHistory.map (fun v => v.Value)) →
            ∀ v ∈ sampleHistory, exactOps.le r.leftValue v.Value = true))) :=
  ⟨by decide, rfl, rfl, by decide, rfl, by decide, by decide, by decide,
    C10_max_min exactOps ⟨3, ">", .fin 5⟩ ⟨3, ">", .fin 5⟩ (windowOf sampleHistory)
      sampleHistory 3 (by decide) rfl rfl (by decide) rfl⟩

/-! ## The claims on `sum`, `avg` and the comparator -/

theorem sumLoop_eq {F : Type} (ops : Float64Ops F) (vs : List (HistoryData F)) (n i : Nat)
    (sum : F) (hlen : i + n ≤ vs.length) :
    SumFunction.loop ops vs n i sum =
      some ((((vs.drop i).take n).map (fun v => v.Value)).foldl ops.add sum) := by
  induction n generalizing i sum with
  | zero => simp [SumFunction.loop]
  | succ n ih =>
    have hi : i < vs.length := by omega
    have hd : vs.drop i = vs[i] :: vs.drop (i + 1) := List.drop_eq_getElem_cons hi
    simp only [SumFunction.loop, List.getElem?_eq_getElem hi]
    rw [ih (i + 1) _ (by omega), hd]
    simp only [List.take_succ_cons, List.map_cons, List.foldl_cons]

theorem avgLoop_eq_sumLoop {F : Type} (ops : Float64Ops F) (vs : List (HistoryData F))
    (n i : Nat) (sum : F) :
    AvgFunction.loop ops vs n i sum = SumFunction.loop ops vs n i sum := by
  induction n generalizing i sum with
  | zero => rfl
  | succ n ih =>
    cases hv : vs[i]? with
    | none => simp [AvgFunction.loop, SumFunction.loop, hv]
    | some v => simp [AvgFunction.loop, SumFunction.loop, hv, ih]

/-- C11 (SUM and AVG). For every limit `k` and every snapshot of `k` entries, evaluated by both
on the same window: `SumFunction.Compute` returns as left value the sum of the `k` values (added
from the newest on, starting at 0), `AvgFunction.Compute` returns exactly that left value
divided by `float64(k)`, and each is triggered exactly when `cmp(leftValue, op, rhs)` holds.
The two being the same value, they are equal within EPSILON as soon as the comparison
`|x - x| < 0.0001` holds of that value (it does of every finite one). -/
theorem C11_sum_avg {F : Type} (ops : Float64Ops F) (fsum : SumFunction F)
    (favg : AvgFunction F) (L : SafeLinkedList F) (vs : List (HistoryData F)) (k : Nat)
    (hsum : fsum.Limit = k) (havg : favg.Limit = k)
    (hsnap : L.HistoryData k = (vs, true)) (hlen : vs.length = k) :
    ∃ rs ra, SumFunction.Compute ops fsum L = some rs ∧
      AvgFunction.Compute ops favg L = some ra ∧
      rs.vs = vs ∧ ra.vs = vs ∧ rs.isEnough = true ∧ ra.isEnough = true ∧
      rs.leftValue = (vs.map (fun v => v.Value)).foldl ops.add ops.zero ∧
      ra.leftValue = ops.div rs.leftValue (ops.ofInt k) ∧
      rs.isTriggered = checkIsTriggered ops rs.leftValue fsum.Operator fsum.RightValue ∧
      ra.isTriggered = checkIsTriggered ops ra.leftValue favg.Operator favg.RightValue ∧
      (ops.lt (ops.abs (ops.sub ra.leftValue ra.leftValue)) ops.epsilon = true →
        checkIsTriggered ops ra.leftValue "=" (ops.div rs.leftValue (ops.ofInt k)) = true) := by
  have hloop : SumFunction.loop ops vs k 0 ops.zero =
      some ((vs.map (fun v => v.Value)).foldl ops.add ops.zero) := by
    rw [sumLoop_eq ops vs k 0 ops.zero (by omega)]
    simp [← hlen]
  refine ⟨⟨vs, (vs.map (fun v => v.Value)).foldl ops.add ops.zero,
      checkIsTriggered ops ((vs.map (fun v => v.Value)).foldl ops.add ops.zero) fsum.Operator
        fsum.RightValue, true⟩,
    ⟨vs, ops.div ((vs.map (fun v => v.Value)).foldl ops.add ops.zero) (ops.ofInt k),
      checkIsTriggered ops
        (ops.div ((vs.map (fun v => v.Value)).foldl ops.add ops.zero) (ops.ofInt k))
        favg.Operator favg.RightValue, true⟩,
    ?_, ?_, rfl, rfl, rfl, rfl, rfl, rfl, rfl, rfl, ?_⟩
  · simp [SumFunction.Compute, hsum, hsnap, hloop]
  · simp [AvgFunction.Compute, havg, hsnap, avgLoop_eq_sumLoop, hloop]
  · intro h
    simpa [checkIsTriggered] using h

/-- C11 on the window 6, 4, 1: `sum(#3)` has left value 11 and `avg(#3)` has left value
11 / 3. -/
theorem C11_sum_avg_witness :
    (⟨3, ">", .fin 10⟩ : SumFunction ExactFloat).Limit = (3 : Nat) ∧
      (⟨3, ">", .fin 10⟩ : AvgFunction ExactFloat).Limit = (3 : Nat) ∧
      (windowOf sampleHistory).HistoryData (3 : Nat) = (sampleHistory, true) ∧
      sampleHistory.length = 3 ∧
      SumFunction.Compute exactOps ⟨3, ">", .fin 10⟩ (windowOf sampleHistory) =
        some ⟨sampleHistory, .fin 11, true, true⟩ ∧
      AvgFunction.Compute exactOps ⟨3, ">", .fin 10⟩ (windowOf sampleHistory) =
        some ⟨sampleHistory, .fin (11 / 3), false, true⟩ ∧
      ∃ rs ra, SumFunction.Compute exactOps ⟨3, ">", .fin 10⟩ (windowOf sampleHistory) = some rs ∧
        AvgFunction.Compute exactOps ⟨3, ">", .fin 10⟩ (windowOf sampleHistory) = some ra ∧
        ra.leftValue = exactOps.div rs.leftValue (exactOps.ofInt (3 : Nat)) :=
  ⟨rfl, rfl, by decide, rfl, by with_unfolding_all decide, by with_unfolding_all decide,
    (C11_sum_avg exactOps ⟨3, ">", .fin 10⟩ ⟨3, ">", .fin 10⟩ (windowOf sampleHistory)
      sampleHistory 3 rfl rfl (by decide) rfl).imp
      (fun _ h => h.imp (fun _ h2 => ⟨h2.1, h2.2.1, h2.2.2.2.2.2.2.2.1⟩))⟩

/-- C16 (comparator). `checkIsTriggered(l, op, r)` is `|l - r| < 0.0001` for `=` and `==`,
`|l - r| > 0.0001` for `!=`, `l < r`, `l <= r`, `l > r`, `l >= r` for `<`, `<=`, `>`, `>=`, and
false for every other operator string. -/
theorem C16_comparator {F : Type} (ops : Float64Ops F) (l r : F) :
    checkIsTriggered ops l "=" r = ops.lt (ops.abs (ops.sub l r)) ops.epsilon ∧
      checkIsTriggered ops l "==" r = ops.lt (ops.abs (ops.sub l r)) ops.epsilon ∧
      checkIsTriggered ops l "!=" r = ops.lt ops.epsilon (ops.abs (ops.sub l r)) ∧
      checkIsTriggered ops l "<" r = ops.lt l r ∧
      checkIsTriggered ops l "<=" r = ops.le l r ∧
      checkIsTriggered ops l ">" r = ops.lt r l ∧
      checkIsTriggered ops l ">=" r = ops.le r l ∧
      ∀ op : String, op ≠ "=" → op ≠ "==" → op ≠ "!=" → op ≠ "<" → op ≠ "<=" → op ≠ ">" →
        op ≠ ">=" → checkIsTriggered ops l op r = false := by
  refine ⟨?_, ?_, ?_, ?_, ?_, ?_, ?_, ?_⟩
  · simp [checkIsTriggered]
  · simp [checkIsTriggered]
  · simp [checkIsTriggered]
  · simp [checkIsTriggered]
  · simp [checkIsTriggered]
  · simp [checkIsTriggered]
  · simp [checkIsTriggered]
  · intro op h1 h2 h3 h4 h5 h6 h7
    simp [checkIsTriggered, h1, h2, h3, h4, h5, h6, h7]

/-! ## Lemmas on the rule parser -/

theorem utf8_ascii (c : Char) (h : c.val ≤ 127) :
    (String.utf8EncodeChar c).map (fun b => Char.ofNat b.toNat) = [c] := by
  simp only [String.utf8EncodeChar, h, if_true, List.map_cons, List.map_nil]
  congr 1
  have h2 : c.val.toNat ≤ 127 := h
  have h3 : c.val.toUInt8.toNat = c.val.toNat := by
    show c.val.toNat % 256 = c.val.toNat
    omega
  rw [h3]
  exact Char.ofNat_toNat c

theorem goBytes_append (s t : String) : goBytes (s ++ t) = goBytes s ++ goBytes t := by
  simp [goBytes, String.data_append]

theorem goBytes_ascii (l : List Char) (h : ∀ c ∈ l, c.val ≤ 127) : goBytes ⟨l⟩ = l := by
  induction l with
  | nil => rfl
  | cons c cs ih =>
    have h1 := utf8_ascii c (h c (List.mem_cons_self _ _))
    have h2 := ih (fun d hd => h d (List.mem_cons_of_mem _ hd))
    simp only [goBytes, List.flatMap_cons] at h2 ⊢
    rw [h1, h2]
    rfl

theorem digitChar_digit (d : Nat) (hd : d < 10) :
    digitValue (Nat.digitChar d) = some d ∧ (Nat.digitChar d).val ≤ 127 := by
  interval_cases d <;> decide

theorem parseDigits_append (xs : List Char) (c : Char) (d n : Nat)
    (hc : digitValue c = some d) (acc : Nat) (hxs : parseDigits xs acc = some n) :
    parseDigits (xs ++ [c]) acc = some (n * 10 + d) := by
  induction xs generalizing acc with
  | nil =>
    simp only [parseDigits] at hxs
    cases hxs
    simp [parseDigits, hc]
  | cons x xs ih =>
    simp only [List.cons_append, parseDigits] at hxs ⊢
    cases hx : digitValue x with
    | none => simp [hx] at hxs
    | some e =>
      simp only [hx] at hxs ⊢
      exact ih _ hxs

theorem toDigitsCore_append (fuel n : Nat) (ds : List Char) :
    Nat.toDigitsCore 10 fuel n ds = Nat.toDigitsCore 10 fuel n [] ++ ds := by
  induction fuel generalizing n ds with
  | zero => simp [Nat.toDigitsCore]
  | succ fuel ih =>
    simp only [Nat.toDigitsCore]
    split
    · simp
    · rw [ih (n / 10) (_ :: ds), ih (n / 10) [_]]
      simp

theorem toDigitsCore_spec (fuel n : Nat) (h : n < fuel) :
    parseDigits (Nat.toDigitsCore 10 fuel n []) 0 = some n ∧
      Nat.toDigitsCore 10 fuel n [] ≠ [] ∧
      ∀ c ∈ Nat.toDigitsCore 10 fuel n [], c.val ≤ 127 := by
  induction fuel generalizing n with
  | zero => omega
  | succ fuel ih =>
    have hd := digitChar_digit (n % 10) (Nat.mod_lt _ (by decide))
    simp only [Nat.toDigitsCore]
    split
    · rename_i h0
      have hn : n % 10 = n := by omega
      have hd2 := hd.1
      rw [hn] at hd2
      refine ⟨?_, by simp, ?_⟩
      · simp [parseDigits, hn, hd2]
      · intro c hc
        simp only [List.mem_singleton] at hc
        rw [hc]
        exact hd.2
    · rename_i h0
      rw [toDigitsCore_append]
      obtain ⟨h1, _, h3⟩ := ih (n / 10) (by omega)
      refine ⟨?_, by simp, ?_⟩
      · rw [parseDigits_append _ _ _ _ hd.1 0 h1]
        congr 1
        omega
      · intro c hc
        rcases List.mem_append.mp hc with hc | hc
        · exact h3 c hc
        · simp only [List.mem_singleton] at hc
          rw [hc]
          exact hd.2

theorem parseDigits_head (c : Char) (cs : List Char) (acc n : Nat)
    (h : parseDigits (c :: cs) acc = some n) : c ≠ '+' ∧ c ≠ '-' := by
  simp only [parseDigits] at h
  cases hc : digitValue c with
  | none => simp [hc] at h
  | some d =>
    have hplus : digitValue '+' = none := by decide
    have hminus : digitValue '-' = none := by decide
    constructor
    · rintro rfl
      rw [hplus] at hc
      cases hc
    · rintro rfl
      rw [hminus] at hc
      cases hc

theorem ParseInt_toDigits (k : Nat) (hk : k < 9223372036854775808) :
    ParseInt (Nat.toDigits 10 k) = some (k : Int) := by
  obtain ⟨h1, h2, _⟩ := toDigitsCore_spec (k + 1) k (by omega)
  unfold Nat.toDigits
  cases hl : Nat.toDigitsCore 10 (k + 1) k [] with
  | nil => exact absurd hl h2
  | cons c cs =>
    rw [hl] at h1
    obtain ⟨hp, hm⟩ := parseDigits_head c cs 0 k h1
    simp [ParseInt, hp, hm, h1]
    omega

theorem goBytes_toString (k : Nat) : goBytes (toString k) = Nat.toDigits 10 k := by
  have h : toString k = ⟨Nat.toDigits 10 k⟩ := rfl
  rw [h]
  exact goBytes_ascii _ (toDigitsCore_spec (k + 1) k (by omega)).2.2

theorem stringsIndex_append (sep : Char) (pre rest : List Char) (h : sep ∉ pre) :
    stringsIndex sep (pre ++ sep :: rest) = pre.length := by
  induction pre with
  | nil => simp [stringsIndex]
  | cons c cs ih =>
    have hc : c ≠ sep := fun e => h (by simp [e])
    have h2 := ih (fun hm => h (List.mem_cons_of_mem _ hm))
    have hlt : ¬ ((cs.length : Int) < 0) := by omega
    show stringsIndex sep (c :: (cs ++ sep :: rest)) = _
    simp only [stringsIndex, hc, if_false, List.length_cons]
    rw [h2, if_neg hlt]
    simp

theorem goSlice_middle (pre mid : List Char) (c : Char) :
    goSlice (pre ++ mid ++ [c]) pre.length ((pre ++ mid ++ [c]).length - 1) = some mid := by
  unfold goSlice
  have h1 : (0 : Int) ≤ pre.length ∧ (pre.length : Int) ≤ ((pre ++ mid ++ [c]).length : Int) - 1 ∧
      ((pre ++ mid ++ [c]).length : Int) - 1 ≤ ((pre ++ mid ++ [c]).length : Nat) := by
    simp only [List.length_append, List.length_singleton, Nat.cast_add, Nat.cast_one]
    omega
  rw [if_pos h1]
  have h2 : (((pre ++ mid ++ [c]).length : Int) - 1 - pre.length).toNat = mid.length := by
    simp only [List.length_append, List.length_singleton, Nat.cast_add, Nat.cast_one]
    omega
  rw [h2]
  simp [List.append_assoc]

theorem goSlice_front (pre rest : List Char) :
    goSlice (pre ++ rest) 0 pre.length = some pre := by
  unfold goSlice
  have h1 : (0 : Int) ≤ 0 ∧ (0 : Int) ≤ pre.length ∧
      (pre.length : Int) ≤ ((pre ++ rest).length : Nat) := by
    simp only [List.length_append, Nat.cast_add]
    omega
  rw [if_pos h1]
  simp

theorem ParseFuncFromString_shape {F : Type} (nm digits : List Char) (open_ close : Char)
    (limit : Int) (operator : String) (rightValue : F) (hnm : '#' ∉ nm) (hopen : open_ ≠ '#')
    (hparse : ParseInt digits = some limit) :
    ParseFuncFromString (nm ++ [open_] ++ '#' :: digits ++ [close]) operator rightValue =
      if nm = goBytes "max" then some (.ok (.max ⟨limit, operator, rightValue⟩))
      else if nm = goBytes "min" then some (.ok (.min ⟨limit, operator, rightValue⟩))
      else if nm = goBytes "all" then some (.ok (.all ⟨limit, operator, rightValue⟩))
      else if nm = goBytes "sum" then some (.ok (.sum ⟨limit, operator, rightValue⟩))
      else if nm = goBytes "avg" then some (.ok (.avg ⟨limit, operator, rightValue⟩))
      else if nm = goBytes "diff" then some (.ok (.diff ⟨limit, operator, rightValue⟩))
      else if nm = goBytes "pdiff" then some (.ok (.pdiff ⟨limit, operator, rightValue⟩))
      else some (.error .notSupportedMethod) := by
  have hidx : stringsIndex '#' (nm ++ [open_] ++ '#' :: digits ++ [close]) =
      ((nm ++ [open_]).length : Nat) := by
    have hpre : '#' ∉ nm ++ [open_] := by
      simp only [List.mem_append, List.mem_singleton, not_or]
      exact ⟨hnm, fun e => hopen e.symm⟩
    rw [List.append_assoc (nm ++ [open_])]
    exact stringsIndex_append '#' (nm ++ [open_]) (digits ++ [close]) hpre
  have hs1 : goSlice (nm ++ [open_] ++ '#' :: digits ++ [close])
      (((nm ++ [open_]).length : Nat) + 1)
      (((nm ++ [open_] ++ '#' :: digits ++ [close]).length : Nat) - 1) = some digits := by
    have := goSlice_middle (nm ++ [open_] ++ ['#']) digits close
    simpa [List.append_assoc] using this
  have hs2 : goSlice (nm ++ [open_] ++ '#' :: digits ++ [close]) 0
      (((nm ++ [open_]).length : Nat) - 1) = some nm := by
    have := goSlice_front nm ([open_] ++ '#' :: digits ++ [close])
    simpa [List.append_assoc] using this
  unfold ParseFuncFromString
  simp only [hidx, hs1, hparse, hs2]

theorem ParseFuncFromString_text {F : Type} (name : String) (k : Nat)
    (hk : k < 9223372036854775808) (operator : String) (rightValue : F)
    (hname : '#' ∉ goBytes name) :
    ParseFuncFromString (goBytes (name ++ "(#" ++ toString k ++ ")")) operator rightValue =
      if goBytes name = goBytes "max" then some (.ok (.max ⟨k, operator, rightValue⟩))
      else if goBytes name = goBytes "min" then some (.ok (.min ⟨k, operator, rightValue⟩))
      else if goBytes name = goBytes "all" then some (.ok (.all ⟨k, operator, rightValue⟩))
      else if goBytes name = goBytes "sum" then some (.ok (.sum ⟨k, operator, rightValue⟩))
      else if goBytes name = goBytes "avg" then some (.ok (.avg ⟨k, operator, rightValue⟩))
      else if goBytes name = goBytes "diff" then some (.ok (.diff ⟨k, operator, rightValue⟩))
      else if goBytes name = goBytes "pdiff" then some (.ok (.pdiff ⟨k, operator, rightValue⟩))
      else some (.error .notSupportedMethod) := by
  have h1 : goBytes "(#" = ['('] ++ ['#'] := by decide
  have h2 : goBytes ")" = [')'] := by decide
  have hb : goBytes (name ++ "(#" ++ toString k ++ ")") =
      goBytes name ++ ['('] ++ '#' :: Nat.toDigits 10 k ++ [')'] := by
    rw [goBytes_append, goBytes_append, goBytes_append, goBytes_toString, h1, h2]
    simp [List.append_assoc]
  rw [hb]
  exact ParseFuncFromString_shape (goBytes name) (Nat.toDigits 10 k) '(' ')' k operator rightValue
    hname (by decide) (ParseInt_toDigits k hk)

theorem ParseInt_range (s : List Char) (v : Int) (h : ParseInt s = some v) : isInt64 v := by
  unfold ParseInt at h
  unfold isInt64
  cases s with
  | nil => simp at h
  | cons c rest =>
    simp only at h
    split at h
    · simp at h
    · split at h
      · simp at h
      · split at h
        · split at h
          · simp at h
          · cases h
            omega
        · split at h
          · simp at h
          · cases h
            omega

/-! ## The claims on the rule parser -/

/-- C13 (the parser accepts the grammar). For each of the seven names, every integer `k` that
fits in 64 bits (so every positive one), written in decimal, and every operator and right
value, `ParseFuncFromString(name + "(#" + k + ")", operator, rightValue)` returns no error and
the struct of that name with `Limit = k`, `Operator = operator`, `RightValue = rightValue`. -/
theorem C13_parser_accepts {F : Type} (k : Nat) (hk : k < 9223372036854775808)
    (operator : String) (rightValue : F) :
    ParseFuncFromString (goBytes ("max" ++ "(#" ++ toString k ++ ")")) operator rightValue =
        some (.ok (.max ⟨k, operator, rightValue⟩)) ∧
      ParseFuncFromString (goBytes ("min" ++ "(#" ++ toString k ++ ")")) operator rightValue =
        some (.ok (.min ⟨k, operator, rightValue⟩)) ∧
      ParseFuncFromString (goBytes ("all" ++ "(#" ++ toString k ++ ")")) operator rightValue =
        some (.ok (.all ⟨k, operator, rightValue⟩)) ∧
      ParseFuncFromString (goBytes ("sum" ++ "(#" ++ toString k ++ ")")) operator rightValue =
        some (.ok (.sum ⟨k, operator, rightValue⟩)) ∧
      ParseFuncFromString (goBytes ("avg" ++ "(#" ++ toString k ++ ")")) operator rightValue =
        some (.ok (.avg ⟨k, operator, rightValue⟩)) ∧
      ParseFuncFromString (goBytes ("diff" ++ "(#" ++ toString k ++ ")")) operator rightValue =
        some (.ok (.diff ⟨k, operator, rightValue⟩)) ∧
      ParseFuncFromString (goBytes ("pdiff" ++ "(#" ++ toString k ++ ")")) operator rightValue =
        some (.ok (.pdiff ⟨k, operator, rightValue⟩)) := by
  refine ⟨?_, ?_, ?_, ?_, ?_, ?_, ?_⟩
  · rw [ParseFuncFromString_text "max" k hk operator rightValue (by decide), if_pos rfl]
  · rw [ParseFuncFromString_text "min" k hk operator rightValue (by decide),
      if_neg (by decide), if_pos rfl]
  · rw [ParseFuncFromString_text "all" k hk operator rightValue (by decide),
      if_neg (by decide), if_neg (by decide), if_pos rfl]
  · rw [ParseFuncFromString_text "sum" k hk operator rightValue (by decide),
      if_neg (by decide), if_neg (by decide), if_neg (by decide), if_pos rfl]
  · rw [ParseFuncFromString_text "avg" k hk operator rightValue (by decide),
      if_neg (by decide), if_neg (by decide), if_neg (by decide), if_neg (by decide), if_pos rfl]
  · rw [ParseFuncFromString_text "diff" k hk operator rightValue (by decide),
      if_neg (by decide), if_neg (by decide), if_neg (by decide), if_neg (by decide),
      if_neg (by decide), if_pos rfl]
  · rw [ParseFuncFromString_text "pdiff" k hk operator rightValue (by decide),
      if_neg (by decide), if_neg (by decide), if_neg (by decide), if_neg (by decide),
      if_neg (by decide), if_neg (by decide), if_pos rfl]

/-- C13 at `k = 3`: the text `max(#3)` of seed scenario 1 gives `MaxFunction` with limit 3. -/
theorem C13_parser_accepts_witness :
    (3 : Nat) < 9223372036854775808 ∧
      "max" ++ "(#" ++ toString (3 : Nat) ++ ")" = "max(#3)" ∧
      ParseFuncFromString (goBytes ("max" ++ "(#" ++ toString (3 : Nat) ++ ")")) ">"
          (ExactFloat.fin 5) =
        some (.ok (.max ⟨(3 : Nat), ">", .fin 5⟩)) :=
  ⟨by decide, by decide, (C13_parser_accepts 3 (by decide) ">" (ExactFloat.fin 5)).1⟩

/-- C14 at the failing inputs: on the empty text, on `#`, on `#3)` and on `55` (a text with no
`#`) a slice expression of `ParseFuncFromString` is out of range, so the call panics instead
of returning an error, and `judgeItemWithStrategy`, which only handles a returned error,
panics with it on a strategy whose text is empty. A text whose only defect is an unknown
name, `foo(#3)`, is rejected with `not_supported_method`. -/
theorem C14_parser_panics :
    ParseFuncFromString (goBytes "") ">" (ExactFloat.fin 5) = none ∧
      ParseFuncFromString (goBytes "#") ">" (ExactFloat.fin 5) = none ∧
      ParseFuncFromString (goBytes "#3)") ">" (ExactFloat.fin 5) = none ∧
      ParseFuncFromString (goBytes "55") ">" (ExactFloat.fin 5) = none ∧
      judgeItemWithStrategy exactOps 300 (fun _ => "k") LastEvents.empty
          (windowOf sampleHistory) { sampleStrategy with Func := "" } sampleItem 3 = none ∧
      ParseFuncFromString (goBytes "foo(#3)") ">" (ExactFloat.fin 5) =
        some (.error .notSupportedMethod) := by
  refine ⟨?_, ?_, ?_, ?_, ?_, ?_⟩ <;> rfl

/-- What `ParseFuncFromString` returns when its slice expressions are in range. With `idx` the
index of the first `#` (-1 when there is none), for every input on which the slice
`str[idx+1 : len(str)-1]` is in range: when that slice is not a signed decimal `int64`, the
error of `strconv.ParseInt` is returned; when it is one and the slice `str[:idx-1]` is in
range, the result is the struct of the name that the slice spells, with that limit and the
given operator and right value, and the error `not_supported_method` when the slice is none
of the seven names. -/
theorem ParseFuncFromString_in_range {F : Type} (str digits : List Char) (operator : String)
    (rightValue : F)
    (hdigits : goSlice str (stringsIndex '#' str + 1) (str.length - 1) = some digits) :
    (ParseInt digits = none →
        ParseFuncFromString str operator rightValue = some (.error .parseInt)) ∧
      (∀ limit name, ParseInt digits = some limit →
        goSlice str 0 (stringsIndex '#' str - 1) = some name →
        ParseFuncFromString str operator rightValue =
          if name = goBytes "max" then some (.ok (.max ⟨limit, operator, rightValue⟩))
          else if name = goBytes "min" then some (.ok (.min ⟨limit, operator, rightValue⟩))
          else if name = goBytes "all" then some (.ok (.all ⟨limit, operator, rightValue⟩))
          else if name = goBytes "sum" then some (.ok (.sum ⟨limit, operator, rightValue⟩))
          else if name = goBytes "avg" then some (.ok (.avg ⟨limit, operator, rightValue⟩))
          else if name = goBytes "diff" then some (.ok (.diff ⟨limit, operator, rightValue⟩))
          else if name = goBytes "pdiff" then
            some (.ok (.pdiff ⟨limit, operator, rightValue⟩))
          else some (.error .notSupportedMethod)) := by
  constructor
  · intro h
    simp [ParseFuncFromString, hdigits, h]
  · intro limit name hparse hname
    simp only [ParseFuncFromString, hdigits, hparse, hname]

/-- The texts `foo(#3)` and `max[#3]`: the first has an unknown name and gets the error
`not_supported_method`; the second is accepted as `max` with limit 3, because the bytes before
`#` and at the end are cut off without being looked at. -/
theorem ParseFuncFromString_in_range_example :
    ParseFuncFromString (goBytes "foo(#3)") ">" (ExactFloat.fin 5) =
        some (.error .notSupportedMethod) ∧
      ParseFuncFromString (goBytes "max[#3]") ">" (ExactFloat.fin 5) =
        some (.ok (.max ⟨3, ">", .fin 5⟩)) :=
  ⟨((ParseFuncFromString_in_range (goBytes "foo(#3)") (goBytes "3") ">" (ExactFloat.fin 5)
      (by decide)).2 3 (goBytes "foo") (by decide) (by decide)).trans
      (by simp only [if_neg (show ¬ goBytes "foo" = goBytes "max" by decide),
        if_neg (show ¬ goBytes "foo" = goBytes "min" by decide),
        if_neg (show ¬ goBytes "foo" = goBytes "all" by decide),
        if_neg (show ¬ goBytes "foo" = goBytes "sum" by decide),
        if_neg (show ¬ goBytes "foo" = goBytes "avg" by decide),
        if_neg (show ¬ goBytes "foo" = goBytes "diff" by decide),
        if_neg (show ¬ goBytes "foo" = goBytes "pdiff" by decide)]),
    ((ParseFuncFromString_in_range (goBytes "max[#3]") (goBytes "3") ">" (ExactFloat.fin 5)
      (by decide)).2 3 (goBytes "max") (by decide) (by decide)).trans (if_pos rfl)⟩

/-- C15, as stated, fails: `max(#0)` and `max(#-3)` are returned without an error and carry
the limits 0 and -3. -/
theorem C15_limit_counterexample :
    ParseFuncFromString (goBytes "max(#0)") ">" (ExactFloat.fin 5) =
        some (.ok (.max ⟨0, ">", .fin 5⟩)) ∧
      ParseFuncFromString (goBytes "max(#-3)") ">" (ExactFloat.fin 5) =
        some (.ok (.max ⟨-3, ">", .fin 5⟩)) ∧
      ¬ ((1 : Int) ≤ 0) ∧ ¬ ((1 : Int) ≤ -3) := by
  refine ⟨?_, ?_, by decide, by decide⟩ <;> rfl

/-- C15 (amended). For every input string, operator and right value, every `Function` that
`ParseFuncFromString` returns without an error carries as `Limit` the value that
`strconv.ParseInt` gives for the text between the first `#` and the last byte: a value of
`int64`, which need not be positive. -/
theorem C15_limit_parsed {F : Type} (str : List Char) (operator : String) (rightValue : F)
    (fn : Function F) (hok : ParseFuncFromString str operator rightValue = some (.ok fn)) :
    ∃ digits, goSlice str (stringsIndex '#' str + 1) (str.length - 1) = some digits ∧
      ParseInt digits = some fn.Limit ∧ isInt64 fn.Limit := by
  unfold ParseFuncFromString at hok
  cases hd : goSlice str (stringsIndex '#' str + 1) (str.length - 1) with
  | none => simp [hd] at hok
  | some digits =>
    cases hp : ParseInt digits with
    | none => simp [hd, hp] at hok
    | some limit =>
      cases hn : goSlice str 0 (stringsIndex '#' str - 1) with
      | none => simp [hd, hp, hn] at hok
      | some name =>
        simp only [hd, hp, hn] at hok
        have hl : fn.Limit = limit := by
          repeat' split at hok
          all_goals first
            | (simp only [Option.some.injEq, Except.ok.injEq] at hok; rw [← hok]; rfl)
            | (simp at hok)
        rw [hl]
        exact ⟨digits, rfl, hp, ParseInt_range digits limit hp⟩

/-- C15 (amended) on the text `max(#0)`: the limit returned is the parsed value 0. -/
theorem C15_limit_parsed_witness :
    ParseFuncFromString (goBytes "max(#0)") ">" (ExactFloat.fin 5) =
        some (.ok (.max ⟨0, ">", .fin 5⟩)) ∧
      ∃ digits, goSlice (goBytes "max(#0)") (stringsIndex '#' (goBytes "max(#0)") + 1)
          ((goBytes "max(#0)").length - 1) = some digits ∧
        ParseInt digits = some (Function.max (⟨0, ">", .fin 5⟩ : MaxFunction ExactFloat)).Limit ∧
        isInt64 (Function.max (⟨0, ">", .fin 5⟩ : MaxFunction ExactFloat)).Limit :=
  ⟨rfl, C15_limit_parsed (goBytes "max(#0)") ">" (ExactFloat.fin 5) (.max ⟨0, ">", .fin 5⟩) rfl⟩

/-! ## The claim on evaluations without enough history -/

theorem Compute_not_enough {F : Type} (ops : Float64Ops F) (fn : Function F)
    (L : SafeLinkedList F) (hnot : (L.HistoryData fn.windowSize).2 = false) :
    fn.Compute ops L = some ⟨(L.HistoryData fn.windowSize).1, ops.zero, false, false⟩ := by
  cases fn with
  | max f =>
    simp only [Function.windowSize, Function.Limit] at hnot ⊢
    cases h : L.HistoryData f.Limit with
    | mk vs b =>
      rw [h] at hnot
      simp only at hnot
      subst hnot
      simp [Function.Compute, MaxFunction.Compute, h]
  | min f =>
    simp only [Function.windowSize, Function.Limit] at hnot ⊢
    cases h : L.HistoryData f.Limit with
    | mk vs b =>
      rw [h] at hnot
      simp only at hnot
      subst hnot
      simp [Function.Compute, MinFunction.Compute, h]
  | all f =>
    simp only [Function.windowSize, Function.Limit] at hnot ⊢
    cases h : L.HistoryData f.Limit with
    | mk vs b =>
      rw [h] at hnot
      simp only at hnot
      subst hnot
      simp [Function.Compute, AllFunction.Compute, h]
  | sum f =>
    simp only [Function.windowSize, Function.Limit] at hnot ⊢
    cases h : L.HistoryData f.Limit with
    | mk vs b =>
      rw [h] at hnot
      simp only at hnot
      subst hnot
      simp [Function.Compute, SumFunction.Compute, h]
  | avg f =>
    simp only [Function.windowSize, Function.Limit] at hnot ⊢
    cases h : L.HistoryData f.Limit with
    | mk vs b =>
      rw [h] at hnot
      simp only at hnot
      subst hnot
      simp [Function.Compute, AvgFunction.Compute, h]
  | diff f =>
    simp only [Function.windowSize] at hnot ⊢
    cases h : L.HistoryData (wrap64 (f.Limit + 1)) with
    | mk vs b =>
      rw [h] at hnot
      simp only at hnot
      subst hnot
      simp [Function.Compute, DiffFunction.Compute, h]
  | pdiff f =>
    simp only [Function.windowSize] at hnot ⊢
    cases h : L.HistoryData (wrap64 (f.Limit + 1)) with
    | mk vs b =>
      rw [h] at hnot
      simp only at hnot
      subst hnot
      simp [Function.Compute, PDiffFunction.Compute, h]

/-- C12, as stated, fails on the returned history: on a window that holds one entry, `max(#3)`
gets that entry from the snapshot together with `enough = false` and returns it, not `nil`,
with the left value 0 and both flags false. -/
theorem C12_not_enough_counterexample :
    (windowOf shortHistory).HistoryData 3 = (shortHistory, false) ∧
      MaxFunction.Compute exactOps ⟨3, ">", .fin 5⟩ (windowOf shortHistory) =
        some ⟨shortHistory, .fin 0, false, false⟩ ∧
      shortHistory ≠ [] := by
  decide

/-- C12 (amended). For every one of the seven function variants and every window, if the
snapshot reports `enough = false` then `Compute` returns `(vs, 0, false, false)`, `vs` being
whatever slice the snapshot returned, and `judgeItemWithStrategy` and
`judgeItemWithExpression`, for a rule whose text parses to this function, send no event and
leave the index unchanged. -/
theorem C12_not_enough {F : Type} (ops : Float64Ops F) (MinInterval : Int)
    (PrimaryKey : JudgeItem F → String) (st : LastEvents F) (L : SafeLinkedList F)
    (fn : Function F) (firstItem : JudgeItem F) (now : Int)
    (hnot : (L.HistoryData fn.windowSize).2 = false) :
    fn.Compute ops L = some ⟨(L.HistoryData fn.windowSize).1, ops.zero, false, false⟩ ∧
      (∀ strategy : Strategy F,
        ParseFuncFromString (goBytes strategy.Func) strategy.Operator strategy.RightValue =
          some (.ok fn) →
        judgeItemWithStrategy ops MinInterval PrimaryKey st L strategy firstItem now =
          some (st, [])) ∧
      (∀ expression : Expression F,
        ParseFuncFromString (goBytes expression.Func) expression.Operator
          expression.RightValue = some (.ok fn) →
        judgeItemWithExpression ops MinInterval PrimaryKey st L expression firstItem now =
          some (st, [])) := by
  have hc := Compute_not_enough ops fn L hnot
  refine ⟨hc, ?_, ?_⟩
  · intro strategy hp
    simp [judgeItemWithStrategy, hp, hc]
  · intro expression hp
    simp [judgeItemWithExpression, hp, hc]

/-- C12 (amended) on the window of one entry: `max(#3)` returns that entry with the left value
0, and judging the strategy or the expression `max(#3) > 5` sends nothing. -/
theorem C12_not_enough_witness :
    ((windowOf shortHistory).HistoryData
        (Function.max (⟨3, ">", .fin 5⟩ : MaxFunction ExactFloat)).windowSize).2 = false ∧
      ParseFuncFromString (goBytes sampleStrategy.Func) sampleStrategy.Operator
          sampleStrategy.RightValue = some (.ok (.max ⟨3, ">", .fin 5⟩)) ∧
      (Function.max (⟨3, ">", .fin 5⟩ : MaxFunction ExactFloat)).Compute exactOps
          (windowOf shortHistory) = some ⟨shortHistory, .fin 0, false, false⟩ ∧
      judgeItemWithStrategy exactOps 300 (fun _ => "k") LastEvents.empty (windowOf shortHistory)
          sampleStrategy sampleItem 3 = some (LastEvents.empty, []) ∧
      judgeItemWithExpression exactOps 300 (fun _ => "k") LastEvents.empty
          (windowOf shortHistory) sampleExpression sampleItem 3 = some (LastEvents.empty, []) :=
  ⟨by decide, rfl,
    (C12_not_enough exactOps 300 (fun _ => "k") LastEvents.empty (windowOf shortHistory)
      (.max ⟨3, ">", .fin 5⟩) sampleItem 3 (by decide)).1,
    (C12_not_enough exactOps 300 (fun _ => "k") LastEvents.empty (windowOf shortHistory)
      (.max ⟨3, ">", .fin 5⟩) sampleItem 3 (by decide)).2.1 sampleStrategy rfl,
    (C12_not_enough exactOps 300 (fun _ => "k") LastEvents.empty (windowOf shortHistory)
      (.max ⟨3, ">", .fin 5⟩) sampleItem 3 (by decide)).2.2 sampleExpression rfl⟩

/-! ## Lemmas on rule matching -/

theorem relatedLoop_iff (itemTags tags : List (String × String)) :
    relatedLoop itemTags tags = true ↔ SubsetMatch tags itemTags := by
  induction tags with
  | nil => simp [relatedLoop, SubsetMatch]
  | cons e rest ih =>
    obtain ⟨k, v⟩ := e
    unfold SubsetMatch at ih ⊢
    simp only [relatedLoop, List.mem_cons, forall_eq_or_imp]
    cases hl : itemTags.lookup k with
    | none => simp
    | some myVal =>
      by_cases hv : myVal = v
      · simp [hv, ih]
      · simp [hv]

theorem CheckStrategyWith_loop_eq {F S : Type} (judge : S → Strategy F → Option S)
    (firstItem : JudgeItem F) (strategies : List (Strategy F)) (st : S) :
    CheckStrategyWith.loop judge firstItem strategies st =
      judgeEach judge
        (strategies.filter (fun s => decide (SubsetMatch s.Tags firstItem.Tags))) st := by
  induction strategies generalizing st with
  | nil => rfl
  | cons s rest ih =>
    by_cases hr : relatedLoop firstItem.Tags s.Tags = true
    · have hm : SubsetMatch s.Tags firstItem.Tags := (relatedLoop_iff _ _).mp hr
      simp only [CheckStrategyWith.loop, hr, if_true, List.filter_cons, hm, decide_True,
        judgeEach]
      cases judge st s with
      | none => rfl
      | some st1 => exact ih st1
    · have hm : ¬ SubsetMatch s.Tags firstItem.Tags := fun h => hr ((relatedLoop_iff _ _).mpr h)
      simp only [CheckStrategyWith.loop, hr, List.filter_cons, hm, decide_False]
      exact ih st

theorem judgeEach_recordCall {R : Type} (l log : List R) :
    judgeEach recordCall l log = some (log ++ l) := by
  induction l generalizing log with
  | nil => simp [judgeEach]
  | cons r rest ih => simp [judgeEach, recordCall, ih]

theorem lookup_of_mem_nodup (tags : List (String × String)) (k v : String)
    (hnodup : (tags.map Prod.fst).Nodup) (hmem : (k, v) ∈ tags) : tags.lookup k = some v := by
  induction tags with
  | nil => cases hmem
  | cons e rest ih =>
    obtain ⟨k1, v1⟩ := e
    simp only [List.map_cons, List.nodup_cons] at hnodup
    rcases List.mem_cons.mp hmem with h | h
    · cases h
      simp [List.lookup]
    · have hne : k ≠ k1 := by
        rintro rfl
        exact hnodup.1 (List.mem_map_of_mem Prod.fst h)
      have hb : (k == k1) = false := by simpa using hne
      simp only [List.lookup, hb]
      exact ih hnodup.2 h

/-! ## The claims on rule matching -/

/-- C18 (subset tag match for strategies). For every sample and every list of strategies found
under the key `endpoint/metric` of the sample, `CheckStrategy` judges, in order, exactly the
strategies every tag of which is present in the tags of the sample with the identical value
(whatever the judging does); when the key has no entry it judges nothing. The match is
reflexive on the tags of a map and monotone: removing tags from a matching strategy keeps it
matching. -/
theorem C18_subset_match {F : Type} (StrategyMap : String → Option (List (Strategy F)))
    (firstItem : JudgeItem F) (strategies : List (Strategy F))
    (hkey : StrategyMap (firstItem.Endpoint ++ "/" ++ firstItem.Metric) = some strategies) :
    (∀ (S : Type) (judge : S → Strategy F → Option S) (st : S),
        CheckStrategyWith StrategyMap judge st firstItem =
          judgeEach judge
            (strategies.filter (fun s => decide (SubsetMatch s.Tags firstItem.Tags))) st) ∧
      (∃ judged, CheckStrategyWith StrategyMap recordCall [] firstItem = some judged ∧
        ∀ s, s ∈ judged ↔ s ∈ strategies ∧ SubsetMatch s.Tags firstItem.Tags) ∧
      (∀ tags : List (String × String), (tags.map Prod.fst).Nodup → SubsetMatch tags tags) ∧
      (∀ tags fewer itemTags : List (String × String), SubsetMatch tags itemTags →
        (∀ e ∈ fewer, e ∈ tags) → SubsetMatch fewer itemTags) := by
  have hgen : ∀ (S : Type) (judge : S → Strategy F → Option S) (st : S),
      CheckStrategyWith StrategyMap judge st firstItem =
        judgeEach judge
          (strategies.filter (fun s => decide (SubsetMatch s.Tags firstItem.Tags))) st := by
    intro S judge st
    simp only [CheckStrategyWith, hkey]
    exact CheckStrategyWith_loop_eq judge firstItem strategies st
  refine ⟨hgen, ?_, ?_, ?_⟩
  · refine ⟨strategies.filter (fun s => decide (SubsetMatch s.Tags firstItem.Tags)), ?_, ?_⟩
    · rw [hgen, judgeEach_recordCall]
      simp
    · intro s
      simp [List.mem_filter]
  · intro tags hnodup e he
    exact lookup_of_mem_nodup tags e.1 e.2 hnodup he
  · intro tags fewer itemTags hm hsub e he
    exact hm e (hsub e he)

/-- C18, seed scenario 6: a strategy with the tags `{service=web}` is judged for the sample
with the tags `{service=web, host=h1}` and is not judged for `{service=db, host=h1}`. -/
theorem C18_subset_match_witness :
    (fun k => if k = "host1/cpu.idle" then
          some [{ sampleStrategy with Tags := [("service", "web")] }] else none)
        (sampleItem.Endpoint ++ "/" ++ sampleItem.Metric) =
        some [{ sampleStrategy with Tags := [("service", "web")] }] ∧
      SubsetMatch [("service", "web")] [("service", "web"), ("host", "h1")] ∧
      ¬ SubsetMatch [("service", "web")] [("service", "db"), ("host", "h1")] ∧
      CheckStrategyWith
          (fun k => if k = "host1/cpu.idle" then
            some [{ sampleStrategy with Tags := [("service", "web")] }] else none)
          recordCall [] sampleItem =
        some [{ sampleStrategy with Tags := [("service", "web")] }] ∧
      CheckStrategyWith
          (fun k => if k = "host1/cpu.idle" then
            some [{ sampleStrategy with Tags := [("service", "web")] }] else none)
          recordCall []
          { sampleItem with Tags := [("service", "db"), ("host", "h1")] } = some [] ∧
      ∃ judged, CheckStrategyWith
          (fun k => if k = "host1/cpu.idle" then
            some [{ sampleStrategy with Tags := [("service", "web")] }] else none)
          recordCall [] sampleItem = some judged ∧
        ∀ s, s ∈ judged ↔ s ∈ [{ sampleStrategy with Tags := [("service", "web")] }] ∧
          SubsetMatch s.Tags sampleItem.Tags :=
  ⟨by decide, by decide, by decide, by decide, by decide,
    (C18_subset_match
      (fun k => if k = "host1/cpu.idle" then
        some [{ sampleStrategy with Tags := [("service", "web")] }] else none)
      sampleItem [{ sampleStrategy with Tags := [("service", "web")] }] (by decide)).2.1⟩

/-- C17 at a sample that carries a tag named `endpoint`: the sample comes from `host1` and has
the tag `endpoint=host2`. `copyItemTags` sets `endpoint` to `host1` and then overwrites it
with the tag, so the expression for `endpoint=host2` is kept and the expression for
`endpoint=host1` is dropped. -/
theorem C17_endpoint_overwritten :
    taggedItem.Endpoint = "host1" ∧
      copyItemTags taggedItem = [("endpoint", "host2")] ∧
      filterRelatedExpressions [host2Expression, host1Expression] taggedItem =
        [host2Expression] := by
  decide

theorem lookup_filter_ne (m : List (String × String)) (k k1 : String) (h : k ≠ k1) :
    (m.filter (fun e => e.1 ≠ k1)).lookup k = m.lookup k := by
  induction m with
  | nil => rfl
  | cons e rest ih =>
    obtain ⟨a, b⟩ := e
    by_cases ha : a = k1
    · subst ha
      have hb : (k == a) = false := by simpa using h
      rw [List.filter_cons_of_neg (by simp), ih]
      simp [List.lookup, hb]
    · rw [List.filter_cons_of_pos (by simpa using ha)]
      by_cases hk : k = a
      · simp [List.lookup, hk]
      · have hb : (k == a) = false := by simpa using hk
        simp only [List.lookup, hb]
        exact ih

theorem lookup_mapSet (m : List (String × String)) (k k1 v : String) :
    (mapSet m k1 v).lookup k = if k = k1 then some v else m.lookup k := by
  by_cases h : k = k1
  · simp [mapSet, List.lookup, h]
  · have hb : (k == k1) = false := by simpa using h
    unfold mapSet
    simp only [List.lookup, hb, h, if_false]
    exact lookup_filter_ne m k k1 h

theorem lookup_none_of_not_mem (m : List (String × String)) (k : String)
    (h : k ∉ m.map Prod.fst) : m.lookup k = none := by
  induction m with
  | nil => rfl
  | cons e rest ih =>
    obtain ⟨a, b⟩ := e
    simp only [List.map_cons, List.mem_cons, not_or] at h
    have hb : (k == a) = false := by simpa using h.1
    simp [List.lookup, hb, ih h.2]

theorem lookup_foldl_mapSet (tags init : List (String × String)) (k : String)
    (hnodup : (tags.map Prod.fst).Nodup) :
    (tags.foldl (fun ret e => mapSet ret e.1 e.2) init).lookup k =
      match tags.lookup k with
      | some v => some v
      | none => init.lookup k := by
  induction tags generalizing init with
  | nil => rfl
  | cons e rest ih =>
    obtain ⟨a, b⟩ := e
    simp only [List.map_cons, List.nodup_cons] at hnodup
    simp only [List.foldl_cons]
    rw [ih (mapSet init a b) hnodup.2, lookup_mapSet]
    by_cases hk : k = a
    · subst hk
      simp [List.lookup, lookup_none_of_not_mem rest k hnodup.1]
    · have hb : (k == a) = false := by simpa using hk
      simp [List.lookup, hb, hk]

theorem filterRelatedExpressions_without_endpoint_tag {F : Type}
    (expressions : List (Expression F)) (firstItem : JudgeItem F)
    (hnodup : (firstItem.Tags.map Prod.fst).Nodup)
    (hfree : "endpoint" ∉ firstItem.Tags.map Prod.fst) (exp : Expression F) :
    exp ∈ filterRelatedExpressions expressions firstItem ↔
      exp ∈ expressions ∧
        ((∃ E, exp.Tags.lookup "endpoint" = some E) →
          ∀ e ∈ exp.Tags, (e.1 = "endpoint" → e.2 = firstItem.Endpoint) ∧
            (e.1 ≠ "endpoint" → firstItem.Tags.lookup e.1 = some e.2)) ∧
        (exp.Tags.lookup "endpoint" = none → SubsetMatch exp.Tags firstItem.Tags) := by
  have hcopy : ∀ k, (copyItemTags firstItem).lookup k =
      if k = "endpoint" then some firstItem.Endpoint else firstItem.Tags.lookup k := by
    intro k
    unfold copyItemTags
    rw [lookup_foldl_mapSet _ _ k hnodup]
    by_cases hk : k = "endpoint"
    · subst hk
      simp [lookup_none_of_not_mem _ _ hfree, List.lookup]
    · have hb : (k == "endpoint") = false := by simpa using hk
      cases hl : firstItem.Tags.lookup k <;> simp [List.lookup, hb, hk]
  simp only [filterRelatedExpressions, List.mem_filter, relatedLoop_iff,
    filterRelatedExpressions.itemTagsCopy]
  constructor
  · rintro ⟨hmem, hrel⟩
    refine ⟨hmem, ?_, ?_⟩
    · rintro ⟨E, hE⟩ e he
      rw [hE] at hrel
      simp only [Option.isSome_some, if_true] at hrel
      have := hrel e he
      rw [hcopy] at this
      constructor
      · intro h1
        simpa [h1] using this.symm
      · intro h1
        simpa [h1] using this
    · intro hnone
      simpa [hnone] using hrel
  · rintro ⟨hmem, h1, h2⟩
    refine ⟨hmem, ?_⟩
    cases hE : exp.Tags.lookup "endpoint" with
    | none => simpa [hE] using h2 hE
    | some E =>
      simp only [Option.isSome_some, if_true]
      intro e he
      rw [hcopy]
      obtain ⟨ha, hb⟩ := h1 ⟨E, hE⟩ e he
      by_cases hk : e.1 = "endpoint"
      · simp [hk, ha hk]
      · simp [hk, hb hk]

/-! ## The claim on expression de-duplication -/

theorem judgeEach_append {S R : Type} (judge : S → R → Option S) (a b : List R) (st : S) :
    judgeEach judge (a ++ b) st = (judgeEach judge a st).bind (judgeEach judge b) := by
  induction a generalizing st with
  | nil => rfl
  | cons r rest ih =>
    simp only [List.cons_append, judgeEach]
    cases judge st r with
    | none => rfl
    | some st1 => exact ih st1

theorem CheckExpressionWith_inner_spec {F : Type} (l : List (Expression F))
    (handled : List Int) :
    ∃ (judged : List (Expression F)) (handled1 : List Int),
      (∀ (S : Type) (judge : S → Expression F → Option S) (st : S),
        CheckExpressionWith.inner judge l handled st =
          (judgeEach judge judged st).map (fun s => (handled1, s))) ∧
      (∀ i, i ∈ handled1 ↔ i ∈ handled ∨ i ∈ judged.map (fun e => e.Id)) ∧
      (judged.map (fun e => e.Id)).Nodup ∧
      (∀ e ∈ judged, e.Id ∉ handled) ∧
      (∀ e ∈ judged, e ∈ l) ∧
      (∀ e ∈ l, e.Id ∈ handled1) := by
  induction l generalizing handled with
  | nil =>
    refine ⟨[], handled, ?_, ?_, ?_, ?_, ?_, ?_⟩
    · intro S judge st
      rfl
    · simp
    · simp
    · simp
    · simp
    · simp
  | cons x rest ih =>
    by_cases hx : x.Id ∈ handled
    · obtain ⟨judged, handled1, h1, h2, h3, h4, h5, h6⟩ := ih handled
      refine ⟨judged, handled1, ?_, h2, h3, h4, ?_, ?_⟩
      · intro S judge st
        simp only [CheckExpressionWith.inner, hx, if_true]
        exact h1 S judge st
      · intro e he
        exact List.mem_cons_of_mem _ (h5 e he)
      · intro e he
        rcases List.mem_cons.mp he with rfl | he
        · exact (h2 _).mpr (Or.inl hx)
        · exact h6 e he
    · obtain ⟨judged, handled1, h1, h2, h3, h4, h5, h6⟩ := ih (x.Id :: handled)
      refine ⟨x :: judged, handled1, ?_, ?_, ?_, ?_, ?_, ?_⟩
      · intro S judge st
        simp only [CheckExpressionWith.inner, hx, if_false, judgeEach]
        cases judge st x with
        | none => rfl
        | some st1 => exact h1 S judge st1
      · intro i
        rw [h2 i]
        simp only [List.mem_cons, List.map_cons]
        tauto
      · simp only [List.map_cons, List.nodup_cons]
        refine ⟨?_, h3⟩
        intro hmem
        obtain ⟨e, he, hid⟩ := List.mem_map.mp hmem
        exact h4 e he (by rw [hid]; exact List.mem_cons_self _ _)
      · intro e he
        rcases List.mem_cons.mp he with rfl | he
        · exact hx
        · exact fun hh => h4 e he (List.mem_cons_of_mem _ hh)
      · intro e he
        rcases List.mem_cons.mp he with rfl | he
        · exact List.mem_cons_self _ _
        · exact List.mem_cons_of_mem _ (h5 e he)
      · intro e he
        rcases List.mem_cons.mp he with rfl | he
        · exact (h2 _).mpr (Or.inl (List.mem_cons_self _ _))
        · exact h6 e he

theorem CheckExpressionWith_outer_spec {F : Type}
    (ExpressionMap : String → Option (List (Expression F))) (firstItem : JudgeItem F)
    (keys : List String) (handled : List Int) :
    ∃ (judged : List (Expression F)) (handled1 : List Int),
      (∀ (S : Type) (judge : S → Expression F → Option S) (st : S),
        CheckExpressionWith.outer ExpressionMap judge firstItem keys handled st =
          (judgeEach judge judged st).map (fun s => (handled1, s))) ∧
      (∀ i, i ∈ handled1 ↔ i ∈ handled ∨ i ∈ judged.map (fun e => e.Id)) ∧
      (judged.map (fun e => e.Id)).Nodup ∧
      (∀ e ∈ judged, e.Id ∉ handled) ∧
      (∀ e ∈ judged, ∃ key ∈ keys, ∃ l, ExpressionMap key = some l ∧
        e ∈ filterRelatedExpressions l firstItem) ∧
      (∀ key ∈ keys, ∀ l, ExpressionMap key = some l →
        ∀ e ∈ filterRelatedExpressions l firstItem, e.Id ∈ handled1) := by
  induction keys generalizing handled with
  | nil =>
    refine ⟨[], handled, ?_, ?_, ?_, ?_, ?_, ?_⟩
    · intro S judge st
      rfl
    · simp
    · simp
    · simp
    · simp
    · simp
  | cons key keys ih =>
    cases hk : ExpressionMap key with
    | none =>
      obtain ⟨judged, handled1, h1, h2, h3, h4, h5, h6⟩ := ih handled
      refine ⟨judged, handled1, ?_, h2, h3, h4, ?_, ?_⟩
      · intro S judge st
        simp only [CheckExpressionWith.outer, hk]
        exact h1 S judge st
      · intro e he
        obtain ⟨k, hkm, l, hl, hel⟩ := h5 e he
        exact ⟨k, List.mem_cons_of_mem _ hkm, l, hl, hel⟩
      · intro k hkm l hl e he
        rcases List.mem_cons.mp hkm with rfl | hkm
        · rw [hk] at hl
          cases hl
        · exact h6 k hkm l hl e he
    | some l0 =>
      obtain ⟨j1, m1, a1, a2, a3, a4, a5, a6⟩ :=
        CheckExpressionWith_inner_spec (filterRelatedExpressions l0 firstItem) handled
      obtain ⟨j2, m2, b1, b2, b3, b4, b5, b6⟩ := ih m1
      refine ⟨j1 ++ j2, m2, ?_, ?_, ?_, ?_, ?_, ?_⟩
      · intro S judge st
        simp only [CheckExpressionWith.outer, hk]
        rw [a1 S judge st, judgeEach_append]
        cases judgeEach judge j1 st with
        | none => rfl
        | some st1 =>
          simp only [Option.map_some', Option.some_bind]
          exact b1 S judge st1
      · intro i
        rw [b2 i, a2 i]
        simp only [List.map_append, List.mem_append]
        tauto
      · rw [List.map_append, List.nodup_append]
        refine ⟨a3, b3, ?_⟩
        intro i hi1 hi2
        obtain ⟨e, he, hid⟩ := List.mem_map.mp hi2
        exact b4 e he ((a2 _).mpr (Or.inr (by rw [hid]; exact hi1)))
      · intro e he
        rcases List.mem_append.mp he with he | he
        · exact a4 e he
        · exact fun hh => b4 e he ((a2 _).mpr (Or.inl hh))
      · intro e he
        rcases List.mem_append.mp he with he | he
        · exact ⟨key, List.mem_cons_self _ _, l0, hk, a5 e he⟩
        · obtain ⟨k, hkm, l, hl, hel⟩ := b5 e he
          exact ⟨k, List.mem_cons_of_mem _ hkm, l, hl, hel⟩
      · intro k hkm l hl e he
        rcases List.mem_cons.mp hkm with rfl | hkm
        · rw [hk] at hl
          cases hl
          exact (b2 _).mpr (Or.inl (a6 e he))
        · exact b6 k hkm l hl e he

/-- C19 (expression de-duplication). For every sample, whose tags are listed in whatever
order `range` visits them, and every `ExpressionIndex`: the keys of the sample are
`metric/tagKey=tagVal` for each of its tags and `metric/endpoint=<endpoint>`; there is a list
`judged` of expressions with pairwise different ids such that `CheckExpression` judges exactly
the expressions of `judged`, in order, each once (whatever the judging does); every judged
expression is listed under one of those keys and passes the tag filter; and, ids being unique
in the index, an expression is in `judged` if and only if it is listed under at least one of
those keys and passes the tag filter. -/
theorem C19_expression_dedup {F : Type}
    (ExpressionMap : String → Option (List (Expression F))) (firstItem : JudgeItem F) :
    (∀ key, key ∈ buildKeysFromMetricAndTags firstItem ↔
        ((∃ t ∈ firstItem.Tags, key = firstItem.Metric ++ "/" ++ t.1 ++ "=" ++ t.2) ∨
          key = firstItem.Metric ++ "/endpoint=" ++ firstItem.Endpoint)) ∧
      ∃ judged : List (Expression F),
        (∀ (S : Type) (judge : S → Expression F → Option S) (st : S),
          CheckExpressionWith ExpressionMap judge st firstItem = judgeEach judge judged st) ∧
        CheckExpressionWith ExpressionMap recordCall [] firstItem = some judged ∧
        (judged.map (fun e => e.Id)).Nodup ∧
        (∀ e ∈ judged, ∃ key,
          ((∃ t ∈ firstItem.Tags, key = firstItem.Metric ++ "/" ++ t.1 ++ "=" ++ t.2) ∨
            key = firstItem.Metric ++ "/endpoint=" ++ firstItem.Endpoint) ∧
          ∃ l, ExpressionMap key = some l ∧ e ∈ filterRelatedExpressions l firstItem) ∧
        ((∀ k1 l1 k2 l2 (a b : Expression F), ExpressionMap k1 = some l1 → a ∈ l1 →
            ExpressionMap k2 = some l2 → b ∈ l2 → a.Id = b.Id → a = b) →
          ∀ e : Expression F, e ∈ judged ↔
            ∃ key,
              ((∃ t ∈ firstItem.Tags, key = firstItem.Metric ++ "/" ++ t.1 ++ "=" ++ t.2) ∨
                key = firstItem.Metric ++ "/endpoint=" ++ firstItem.Endpoint) ∧
              ∃ l, ExpressionMap key = some l ∧ e ∈ filterRelatedExpressions l firstItem) := by
  have hkeyiff : ∀ key, key ∈ buildKeysFromMetricAndTags firstItem ↔
      ((∃ t ∈ firstItem.Tags, key = firstItem.Metric ++ "/" ++ t.1 ++ "=" ++ t.2) ∨
        key = firstItem.Metric ++ "/endpoint=" ++ firstItem.Endpoint) := by
    intro key
    simp only [buildKeysFromMetricAndTags, List.mem_append, List.mem_map, List.mem_singleton]
    constructor
    · rintro (⟨t, ht, rfl⟩ | h)
      · exact Or.inl ⟨t, ht, rfl⟩
      · exact Or.inr h
    · rintro (⟨t, ht, rfl⟩ | h)
      · exact Or.inl ⟨t, ht, rfl⟩
      · exact Or.inr h
  refine ⟨hkeyiff, ?_⟩
  obtain ⟨judged, handled1, h1, h2, h3, _, h5, h6⟩ :=
    CheckExpressionWith_outer_spec ExpressionMap firstItem
      (buildKeysFromMetricAndTags firstItem) []
  have hkeys : ¬ (buildKeysFromMetricAndTags firstItem).length = 0 := by
    simp [buildKeysFromMetricAndTags]
  have hgen : ∀ (S : Type) (judge : S → Expression F → Option S) (st : S),
      CheckExpressionWith ExpressionMap judge st firstItem = judgeEach judge judged st := by
    intro S judge st
    simp only [CheckExpressionWith, hkeys, if_false, h1 S judge st]
    cases judgeEach judge judged st <;> rfl
  have hlisted : ∀ e ∈ judged, ∃ key,
      ((∃ t ∈ firstItem.Tags, key = firstItem.Metric ++ "/" ++ t.1 ++ "=" ++ t.2) ∨
        key = firstItem.Metric ++ "/endpoint=" ++ firstItem.Endpoint) ∧
      ∃ l, ExpressionMap key = some l ∧ e ∈ filterRelatedExpressions l firstItem := by
    intro e he
    obtain ⟨key, hkey, l, hl, hel⟩ := h5 e he
    exact ⟨key, (hkeyiff key).mp hkey, l, hl, hel⟩
  refine ⟨judged, hgen, ?_, h3, hlisted, ?_⟩
  · rw [hgen, judgeEach_recordCall]
    simp
  · intro huniq e
    constructor
    · exact hlisted e
    · rintro ⟨key, hkey, l, hl, hel⟩
      have hid := (h2 e.Id).mp (h6 key ((hkeyiff key).mpr hkey) l hl e hel)
      rcases hid with hid | hid
      · cases hid
      · obtain ⟨e1, he1, hid1⟩ := List.mem_map.mp hid
        obtain ⟨k1, _, l1, hl1, hel1⟩ := h5 e1 he1
        have hmem1 : e1 ∈ l1 := (List.mem_filter.mp hel1).1
        have hmem : e ∈ l := (List.mem_filter.mp hel).1
        have := huniq k1 l1 key l e1 e hl1 hmem1 hl hmem hid1
        rw [← this]
        exact he1

/-- C19 on the sample of `host1` with the tags `service=web` and `host=h1`: its keys are
`cpu.idle/service=web`, `cpu.idle/host=h1` and `cpu.idle/endpoint=host1`. The expressions 7
and 9 are listed under two of them and are judged once each, in the order of the first key;
the expression 8, for `endpoint=host2`, is listed and does not pass the tag filter. -/
theorem C19_expression_dedup_witness :
    buildKeysFromMetricAndTags sampleItem =
        ["cpu.idle/service=web", "cpu.idle/host=h1", "cpu.idle/endpoint=host1"] ∧
      CheckExpressionWith sampleExpressionMap recordCall [] sampleItem =
        some [sampleExpression, host1Expression] ∧
      (∀ key, key ∈ buildKeysFromMetricAndTags sampleItem ↔
        ((∃ t ∈ sampleItem.Tags, key = sampleItem.Metric ++ "/" ++ t.1 ++ "=" ++ t.2) ∨
          key = sampleItem.Metric ++ "/endpoint=" ++ sampleItem.Endpoint)) ∧
      ∃ judged, CheckExpressionWith sampleExpressionMap recordCall [] sampleItem = some judged ∧
        (judged.map (fun e => e.Id)).Nodup :=
  ⟨by decide, by decide, (C19_expression_dedup sampleExpressionMap sampleItem).1,
    (C19_expression_dedup sampleExpressionMap sampleItem).2.imp
      (fun _ h => ⟨h.2.1, h.2.2.1⟩)⟩

/-! ## The claim on the invariant of the index -/

theorem sendEventIfNeed_no_panic {F : Type} (MinInterval : Int) (st : LastEvents F)
    (historyData : List (HistoryData F)) (isTriggered : Bool) (now : Int) (event : Event F)
    (maxStep : Int) (hwf : WellFormedIndex st) (hhist : historyData ≠ []) :
    sendEventIfNeed MinInterval st historyData isTriggered now event maxStep ≠ none := by
  obtain ⟨oldest, hold⟩ : ∃ oldest, historyData.getLast? = some oldest := by
    cases h : historyData.getLast? with
    | none => exact absurd (List.getLast?_eq_none_iff.mp h) hhist
    | some o => exact ⟨o, rfl⟩
  unfold sendEventIfNeed
  cases hget : st.Get event.Id with
  | none =>
    cases isTriggered
    · simp
    · simp only [if_true]
      split <;> simp
  | some last =>
    obtain ⟨_, hs, _⟩ := hwf _ _ hget
    rcases hs with hs | hs
    · cases isTriggered
      · simp [hs, status_problem_data]
      · simp only [hs, status_problem_data, hold, if_true]
        simp only [Char.reduceEq, if_false]
        repeat' split
        all_goals simp
    · cases isTriggered
      · simp [hs, status_ok_data]
      · simp only [hs, status_ok_data, if_true]
        split <;> simp

theorem sendEventIfNeed_wellFormed {F : Type} (MinInterval : Int) (st : LastEvents F)
    (historyData : List (HistoryData F)) (isTriggered : Bool) (now : Int) (event : Event F)
    (maxStep : Int) (hwf : WellFormedIndex st) (hhist : historyData ≠ [])
    (hmax : isInt64 maxStep) :
    ∃ st1 sent, sendEventIfNeed MinInterval st historyData isTriggered now event maxStep =
        some (st1, sent) ∧ WellFormedIndex st1 ∧ (sent = [] → st1 = st) := by
  have hset : ∀ e : Event F, e.Id = event.Id →
      (e.Status = "PROBLEM" ∨ e.Status = "OK") → 1 ≤ e.CurrentStep →
      WellFormedIndex (st.Set event.Id e) := by
    intro e hid hs hstep id x hx
    by_cases hi : id = event.Id
    · subst hi
      simp only [LastEvents.Get, LastEvents.Set, if_true, Option.some.injEq] at hx
      subst hx
      exact ⟨hid, hs, hstep⟩
    · simp only [LastEvents.Get, LastEvents.Set, hi, if_false] at hx
      exact hwf id x hx
  rcases sendEventIfNeed_cases MinInterval st historyData isTriggered now event maxStep with
    h | h | ⟨e, h, hid, hrel⟩
  · exact absurd h (sendEventIfNeed_no_panic MinInterval st historyData isTriggered now event
      maxStep hwf hhist)
  · exact ⟨st, [], h, hwf, fun _ => rfl⟩
  · refine ⟨st.Set event.Id e, [e], h, ?_, fun hnil => by cases hnil⟩
    rcases hrel with ⟨hs, hstep, _⟩ | ⟨hs, hstep, _⟩ | ⟨hs, last, hl, _, hlt, _, hstep⟩
    · exact hset e hid (Or.inr hs) (by omega)
    · exact hset e hid (Or.inl hs) (by omega)
    · obtain ⟨_, _, hlast⟩ := hwf _ _ hl
      have hw : wrap64 (last.CurrentStep + 1) = last.CurrentStep + 1 := by
        apply wrap64_of_isInt64
        unfold isInt64 at *
        omega
      rw [hw] at hstep
      exact hset e hid (Or.inl hs) (by omega)

theorem runCalls_wellFormed {F : Type} (MinInterval : Int) (calls : List (Call F))
    (st : LastEvents F) (hwf : WellFormedIndex st)
    (hcalls : ∀ c ∈ calls, c.historyData ≠ [] ∧ isInt64 c.maxStep) :
    WellFormedIndex (runCalls MinInterval st calls).1 := by
  induction calls generalizing st with
  | nil => exact hwf
  | cons c cs ih =>
    obtain ⟨hh, hm⟩ := hcalls c (List.mem_cons_self _ _)
    obtain ⟨st1, sent, hrun, hwf1, _⟩ :=
      sendEventIfNeed_wellFormed MinInterval st c.historyData c.isTriggered c.now c.event
        c.maxStep hwf hh hm
    simp only [runCalls, hrun]
    exact ih st1 hwf1 (fun d hd => hcalls d (List.mem_cons_of_mem _ hd))

/-- C20 (invariant of the index). Starting from the empty index, after any sequence of
`sendEventIfNeed` calls with non-empty histories (any ids, verdicts and `now` values;
`maxStep` a value of the type `int`), every entry of the index is stored under its own event
id, has the status `PROBLEM` or `OK` and a step of at least 1. Hence no call of the sequence
panics (`lastEvent.Status[0]` never reads an empty string), and a call that sends no event
leaves the index unchanged. -/
theorem C20_last_event_invariant {F : Type} (MinInterval : Int) (calls : List (Call F))
    (hcalls : ∀ c ∈ calls, c.historyData ≠ [] ∧ isInt64 c.maxStep) :
    WellFormedIndex (runCalls MinInterval LastEvents.empty calls).1 ∧
      ∀ pre c post, calls = pre ++ c :: post →
        WellFormedIndex (runCalls MinInterval LastEvents.empty pre).1 ∧
        ∃ st1 sent,
          sendEventIfNeed MinInterval (runCalls MinInterval LastEvents.empty pre).1
            c.historyData c.isTriggered c.now c.event c.maxStep = some (st1, sent) ∧
          WellFormedIndex st1 ∧
          (sent = [] → st1 = (runCalls MinInterval LastEvents.empty pre).1) := by
  have hempty : WellFormedIndex (LastEvents.empty : LastEvents F) := by
    intro id e h
    cases h
  refine ⟨runCalls_wellFormed MinInterval calls _ hempty hcalls, ?_⟩
  intro pre c post hsplit
  have hpre : WellFormedIndex (runCalls MinInterval LastEvents.empty pre).1 :=
    runCalls_wellFormed MinInterval pre _ hempty
      (fun d hd => hcalls d (by rw [hsplit]; exact List.mem_append_left _ hd))
  obtain ⟨hh, hm⟩ := hcalls c (by rw [hsplit]; simp)
  exact ⟨hpre, sendEventIfNeed_wellFormed MinInterval _ c.historyData c.isTriggered c.now
    c.event c.maxStep hpre hh hm⟩

/-- C20 on the four triggered evaluations of the rule with `maxStep = 2`: the entry of
`s_1_k` after the run is the `PROBLEM` of step 2. -/
theorem C20_last_event_invariant_witness :
    (∀ c ∈ cappedCalls, c.historyData ≠ [] ∧ isInt64 c.maxStep) ∧
      ((runCalls 300 LastEvents.empty cappedCalls).1.Get "s_1_k").map
          (fun e => (e.Id, e.Status, e.CurrentStep)) = some ("s_1_k", "PROBLEM", 2) ∧
      WellFormedIndex (runCalls 300 LastEvents.empty cappedCalls).1 :=
  ⟨by decide, by decide, (C20_last_event_invariant 300 cappedCalls (by decide)).1⟩

end Judge
